import Mathlib

/-!
Shallow embedding of the gofasta sources: the `closest` package
(pkg/closest/closest.go) and the `snps` package (the streaming
SNPs-vs-reference pipeline).

Modelling conventions:
* Nucleotide codes are 8-bit values, modelled as `Nat`; the Go bitwise `&`
  is `Nat.land`.
* The only float64 values this code compares are genetic distances of the
  form `differences / denominator` with `0 ≤ differences ≤ denominator`,
  so every such value is either NaN (from 0/0) or a nonnegative rational.
  They are modelled exactly as `Option ℚ` (`none` = NaN), with IEEE
  comparison semantics: NaN is `==`-equal to nothing (itself included) and
  `<`-below nothing.  The float64 counter increments by 1.0 are exact, so
  the counters are modelled as `Nat`.
* The decoding array and the score dictionary live in pkg/encoding, which
  is not part of the given sources; both are passed as parameters
  (`nucDict`/`DA : Nat → String`, `scoreDict : Nat → Int`), so every
  statement below holds for an arbitrary encoding table.
* Concurrency: the workers produce results in nondeterministic order; this
  is modelled by quantifying over an arbitrary permutation of the results
  in the theorems that concern ordering.
-/

namespace Gofasta

/-- Distance values: `none` is NaN, `some q` is the exact finite value. -/
abbrev GFloat := Option ℚ

/-- IEEE `==` on distance values: NaN is equal to nothing. -/
def feq : GFloat → GFloat → Bool
  | some a, some b => decide (a = b)
  | _, _ => false

/-- IEEE `<` on distance values: every comparison with NaN is false. -/
def flt : GFloat → GFloat → Bool
  | some a, some b => decide (a < b)
  | _, _ => false

namespace Closest

/-- The loop of closest.getMinFloatIndices: `i` is the loop counter, `min`
the running minimum (`var min float64` starts at the zero value `0.0`),
`I` the accumulated index slice. -/
def minScan : List GFloat → Nat → GFloat → List Nat → GFloat × List Nat
  | [], _, min, I => (min, I)
  | score :: rest, i, min, I =>
    if i = 0 then minScan rest (i + 1) score (I ++ [i])
    else if feq score min then minScan rest (i + 1) min (I ++ [i])
    else if flt score min then minScan rest (i + 1) score [i]
    else minScan rest (i + 1) min I

/-- closest.getMinFloatIndices. -/
def getMinFloatIndices (V : List GFloat) : List Nat :=
  (minScan V 0 (some 0) []).2

/-- The loop of closest.getMaxIntIndices (`var max int` starts at 0). -/
def maxScan : List Int → Nat → Int → List Nat → Int × List Nat
  | [], _, max, I => (max, I)
  | score :: rest, i, max, I =>
    if i = 0 then maxScan rest (i + 1) score (I ++ [i])
    else if score = max then maxScan rest (i + 1) max (I ++ [i])
    else if max < score then maxScan rest (i + 1) score [i]
    else maxScan rest (i + 1) max I

/-- closest.getMaxIntIndices. -/
def getMaxIntIndices (V : List Int) : List Nat :=
  (maxScan V 0 0 []).2

/-- closest.getBestTargetIndex.  Go's slice indexing is modelled with
`getD`; in every use below the indices are in bounds. -/
def getBestTargetIndex (differencesV : List GFloat) (completenessV : List Int) : Nat :=
  let distanceMinIndices := getMinFloatIndices differencesV
  if 1 < distanceMinIndices.length then
    let completenesses := distanceMinIndices.map (fun i => completenessV.getD i 0)
    let completenessMaxIndices := getMaxIntIndices completenesses
    distanceMinIndices.getD (completenessMaxIndices.getD 0 0) 0
  else
    distanceMinIndices.getD 0 0

/-- The inner loop of closest.getDifferenceMatrix for one query-target
pair: returns (differences, denominator).  The Go loop runs over the
uniform alignment width, indexing both rows; this is the zip of the two
rows (identical whenever the rows have that common width). -/
def pairCounts (target query : List Nat) : Nat × Nat :=
  (target.zip query).foldl
    (fun acc p =>
      let x := p.1
      let y := p.2
      let different := x.land y < 16
      let same := x.land 8 = 8 ∧ x = y
      ((if different then acc.1 + 1 else acc.1),
        (if different ∨ same then acc.2 + 1 else acc.2)))
    (0, 0)

/-- The column predicate `different` of getDifferenceMatrix (x is the
target code, y the query code). -/
def colDifferent (x y : Nat) : Prop := x.land y < 16

/-- The column predicate `same` of getDifferenceMatrix, exactly as the
source states it. -/
def colSameConfirmed (x y : Nat) : Prop := x.land 8 = 8 ∧ x = y

/-- A column that satisfies `same` but not `different`: the class that
contributes to the denominator only. -/
def colSameOnly (x y : Nat) : Prop := colSameConfirmed x y ∧ ¬ colDifferent x y

/-- A column that satisfies neither predicate: excluded from both counts. -/
def colUninformative (x y : Nat) : Prop := ¬ colDifferent x y ∧ ¬ colSameConfirmed x y

instance (x y : Nat) : Decidable (colDifferent x y) := by
  unfold colDifferent; infer_instance

instance (x y : Nat) : Decidable (colSameConfirmed x y) := by
  unfold colSameConfirmed; infer_instance

instance (x y : Nat) : Decidable (colSameOnly x y) := by
  unfold colSameOnly; infer_instance

instance (x y : Nat) : Decidable (colUninformative x y) := by
  unfold colUninformative; infer_instance

/-- Number of columns of the pair counted as `different`. -/
def countDifferent (t q : List Nat) : Nat :=
  ((t.zip q).filter fun c => decide (colDifferent c.1 c.2)).length

/-- Number of columns satisfying the source's `same` predicate (with no
exclusion of columns that are also `different`). -/
def countSameConfirmed (t q : List Nat) : Nat :=
  ((t.zip q).filter fun c => decide (colSameConfirmed c.1 c.2)).length

/-- Number of columns that contribute to the denominator but not to the
numerator. -/
def countSameOnly (t q : List Nat) : Nat :=
  ((t.zip q).filter fun c => decide (colSameOnly c.1 c.2)).length

/-- Number of columns contributing to neither count. -/
def countUninformative (t q : List Nat) : Nat :=
  ((t.zip q).filter fun c => decide (colUninformative c.1 c.2)).length

/-- One cell of closest.getDifferenceMatrix: `differences / denominator`
as a float64, i.e. NaN (`none`) when the denominator is 0 and the exact
rational value otherwise. -/
def pairDistance (target query : List Nat) : GFloat :=
  let c := pairCounts target query
  if c.2 = 0 then none else some ((c.1 : ℚ) / (c.2 : ℚ))

/-- closest.getDifferenceMatrix. -/
def getDifferenceMatrix (queryA targetA : List (List Nat)) : List (List GFloat) :=
  queryA.map (fun q => targetA.map (fun t => pairDistance t q))

/-- closest.scoreAlignment; the score dictionary from pkg/encoding is a
parameter. -/
def scoreAlignment (A : List (List Nat)) (scoreDict : Nat → Int) : List Int :=
  A.map (fun row => row.foldl (fun score nuc => score + scoreDict nuc) 0)

/-- closest.getSNPs: the loop runs over the target length; the decoding
array nucDict from pkg/encoding is a parameter. -/
def getSNPs (queryV targetV : List Nat) (nucDict : Nat → String) : List String :=
  (List.range targetV.length).foldl
    (fun SNPs r =>
      let x := queryV.getD r 0
      let y := targetV.getD r 0
      if x.land y < 16 then
        SNPs ++ [toString (r + 1) ++ nucDict x ++ nucDict y]
      else SNPs)
    []

/-- closest.processChunk, as the list of csv rows for one chunk. -/
def processChunk (QA : List (List Nat)) (Qnames : List String)
    (TA : List (List Nat)) (Tnames : List String)
    (targetScores : List Int) (nucDict : Nat → String) : List String :=
  let D := getDifferenceMatrix QA TA
  (List.range QA.length).map (fun queryi =>
    let bestIndx := getBestTargetIndex (D.getD queryi []) targetScores
    let SNPs := getSNPs (QA.getD queryi []) (TA.getD bestIndx []) nucDict
    let SNPdistance := SNPs.length
    (Qnames.getD queryi "") ++ "," ++ (Tnames.getD bestIndx "") ++ ","
      ++ toString SNPdistance ++ "," ++ String.intercalate ";" SNPs ++ "\n")

/-- The chunk `[start:end]` of a slice handed to goroutine `i` in
closest.Closest (`start = i*chunkSize`, the last goroutine runs to the
end). -/
def chunkOf (l : List α) (chunkSize NGoRoutines i : Nat) : List α :=
  if i = NGoRoutines - 1 then l.drop (i * chunkSize)
  else (l.drop (i * chunkSize)).take chunkSize

/-- The chunk results sent down the channel, keyed by goroutine id. -/
def chunkResults (QA : List (List Nat)) (Qnames : List String)
    (TA : List (List Nat)) (Tnames : List String) (targetScores : List Int)
    (nucDict : Nat → String) (chunkSize NGoRoutines : Nat) :
    List (Nat × List String) :=
  (List.range NGoRoutines).map (fun i =>
    (i, processChunk (chunkOf QA chunkSize NGoRoutines i)
      (chunkOf Qnames chunkSize NGoRoutines i) TA Tnames targetScores nucDict))

/-- The coordinator's collection loop: each arriving result is placed into
the slot array at its chunk id (`sorted[output.id] = output.rows`). -/
def fillSlots (N : Nat) (arrivals : List (Nat × List String)) : List (List String) :=
  arrivals.foldl (fun acc p => acc.set p.1 p.2) (List.replicate N [])

/-- closest.Closest up to (and excluding) the final writeResults call:
the validation checks, then the ordered rows.  `arrivals` is the channel
arrival order of the chunk results (constrained to a permutation of
`chunkResults` in the theorems).  The float64 chunk-size computation
`int(math.Floor(float64(len(QA))/float64(N)))` is exact integer floor
division for every in-memory alignment size, hence `Nat` division. -/
def ClosestModel (threads : Nat) (QA : List (List Nat)) (Qnames : List String)
    (TA : List (List Nat)) (Tnames : List String)
    (arrivals : List (Nat × List String)) : Except String (List String) :=
  if QA.length ≠ Qnames.length then .error "error parsing query alignment"
  else if TA.length ≠ Tnames.length then .error "error parsing target alignment"
  else if (QA.headD []).length ≠ (TA.headD []).length then
    .error "query and target alignments are not the same width"
  else
    let NGoRoutines := if QA.length < threads then QA.length else threads
    .ok ((fillSlots NGoRoutines arrivals).flatten)

/-- Verification helper: the minimum of `m` and the defined (non-NaN)
entries of the list — the value the running minimum of getMinFloatIndices
reaches once it holds the defined value `m`. -/
def finMin (m : ℚ) : List GFloat → ℚ
  | [] => m
  | none :: rest => finMin m rest
  | some v :: rest => finMin (if v < m then v else m) rest

/-- Verification helper: the (ascending) indices, offset by `k`, of the
entries equal to the defined value `m`. -/
def matchIdx (m : ℚ) : List GFloat → Nat → List Nat
  | [], _ => []
  | x :: rest, k => (if x = some m then [k] else []) ++ matchIdx m rest (k + 1)

/-- Verification helper: the maximum of `m` and the entries of the list. -/
def finMax (m : Int) : List Int → Int
  | [] => m
  | v :: rest => finMax (if m < v then v else m) rest

/-- Verification helper: the (ascending) indices, offset by `k`, of the
entries equal to `m`. -/
def matchIdxInt (m : Int) : List Int → Nat → List Nat
  | [], _ => []
  | v :: rest, k => (if v = m then [k] else []) ++ matchIdxInt m rest (k + 1)

/-- The row written by processChunk for one query, spelled directly: the
best target index is computed from the query's row of the difference
matrix and the precomputed target scores. -/
def rowFor (q : List Nat) (qname : String) (TA : List (List Nat)) (Tnames : List String)
    (targetScores : List Int) (nucDict : Nat → String) : String :=
  let bestIndx := getBestTargetIndex (TA.map (fun t => pairDistance t q)) targetScores
  let SNPs := getSNPs q (TA.getD bestIndx []) nucDict
  qname ++ "," ++ (Tnames.getD bestIndx "") ++ "," ++ toString SNPs.length ++ ","
    ++ String.intercalate ";" SNPs ++ "\n"

/-- An abstract file sink: does os.Create fail, and does the n-th
WriteString call fail (write 0 is the header, write k+1 is the k-th row). -/
structure Sink where
  createErr : Option String
  writeErr : Nat → Option String

/-- closest.writeResults: returns the first error among create, the header
write and the row writes, or `none` on success. -/
def writeResults (A : List (List String)) (sink : Sink) : Option String :=
  match sink.createErr with
  | some e => some e
  | none =>
    match sink.writeErr 0 with
    | some e => some e
    | none =>
      A.flatten.enum.foldl
        (fun acc p =>
          match acc with
          | some e => some e
          | none => sink.writeErr (p.1 + 1))
        none

/-- The tail of closest.Closest: `writeResults(sorted, outfile)` is called,
its return value is discarded, and `nil` is returned. -/
def closestTail (sorted : List (List String)) (sink : Sink) : Option String :=
  let _ := writeResults sorted sink
  none

end Closest

namespace Snps

/-- snps.snpLine: one record's SNP row. -/
structure snpLine where
  queryname : String
  snps : List String
  idx : Nat
deriving DecidableEq, Inhabited, Repr

/-- The body of snps.getSNPs for one fasta record: `refSeq[i]` is indexed
for every position `i` of the query sequence, so a query longer than the
reference is a Go index-out-of-range panic, modelled as `none`.  `DA` is
the decoding array from pkg/encoding, passed as a parameter. -/
def getSNPsLine (refSeq : List Nat) (FRid : String) (FRidx : Nat)
    (FRseq : List Nat) (DA : Nat → String) : Option snpLine :=
  if refSeq.length < FRseq.length then none
  else some
    { queryname := FRid
      idx := FRidx
      snps := (List.range FRseq.length).foldl (fun SNPs i =>
        let nuc := FRseq.getD i 0
        if (refSeq.getD i 0).land nuc < 16 then
          SNPs ++ [DA (refSeq.getD i 0) ++ toString (i + 1) ++ DA nuc]
        else SNPs) [] }

/-- Lookup in the writer's `outputMap` (a Go map from int to snpLine,
modelled as an association list whose keys stay distinct). -/
def mapLookup : List (Nat × snpLine) → Nat → Option snpLine
  | [], _ => none
  | (k, v) :: rest, key => if k = key then some v else mapLookup rest key

/-- `outputMap[key] = v`. -/
def mapInsert : List (Nat × snpLine) → Nat → snpLine → List (Nat × snpLine)
  | [], key, v => [(key, v)]
  | (k, w) :: rest, key, v =>
    if k = key then (key, v) :: rest else (k, w) :: mapInsert rest key v

/-- `delete(outputMap, key)`. -/
def mapErase : List (Nat × snpLine) → Nat → List (Nat × snpLine)
  | [], _ => []
  | (k, v) :: rest, key => if k = key then rest else (k, v) :: mapErase rest key

/-- One line written by snps.writeOutput. -/
def renderLine (SL : snpLine) : String :=
  SL.queryname ++ "," ++ String.intercalate "|" SL.snps ++ "\n"

/-- The writer's state: the reorder buffer, the next expected index, and
the lines written so far (as snpLines; they are rendered on write). -/
structure WState where
  m : List (Nat × snpLine)
  counter : Nat
  out : List snpLine
deriving Repr

/-- One iteration of the first loop of snps.writeOutput: store the arrived
record in the map, then write (at most) one record if the next expected
index is present. -/
def streamStep (s : WState) (a : snpLine) : WState :=
  let m1 := mapInsert s.m a.idx a
  match mapLookup m1 s.counter with
  | some SL =>
      { m := mapErase m1 s.counter, counter := s.counter + 1, out := s.out ++ [SL] }
  | none => { m := m1, counter := s.counter, out := s.out }

/-- The first loop of snps.writeOutput over the whole arrival order. -/
def streamPhase (s : WState) (arrivals : List snpLine) : WState :=
  arrivals.foldl streamStep s

/-- The second loop of snps.writeOutput: while the map is nonempty, write
`outputMap[counter]` (the Go zero value if absent), delete it and advance.
The Go loop runs until the map is empty; it is modelled with fuel, and is
exact whenever each visited `counter` is present in the map (then every
iteration removes exactly one entry, so `m.length` iterations occur). -/
def drain : List (Nat × snpLine) → Nat → Nat → List snpLine
  | _, _, 0 => []
  | m, counter, fuel + 1 =>
    if m.isEmpty then []
    else (mapLookup m counter).getD default :: drain (mapErase m counter) (counter + 1) fuel

/-- snps.writeOutput as a function of the arrival order on the cSNPs
channel: the header line, then the lines of the streaming loop, then the
lines of the drain loop. -/
def writeOutput (arrivals : List snpLine) : List String :=
  let s := streamPhase { m := [], counter := 0, out := [] } arrivals
  "query,SNPs\n" :: (s.out ++ drain s.m s.counter s.m.length).map renderLine

/-- Verification helper: the writer invariant relating the state of
writeOutput to the multiset of indices seen so far: `f` gives the record
for each index, `seen` is the list of indices that have arrived. -/
def WInv (f : Nat → snpLine) (seen : List Nat) (s : WState) : Prop :=
  (∀ k : Nat, k < s.counter → k ∈ seen) ∧
  (∀ k : Nat, mapLookup s.m k = if k ∈ seen ∧ s.counter ≤ k then some (f k) else none) ∧
  s.out = (List.range s.counter).map f ∧
  s.m.length + s.counter = seen.length ∧
  (s.m.map Prod.fst).Nodup

/-- The reference-loading loop of snps.SNPs: every record received from
ReadEncodeAlignment overwrites `refSeq`, so the last record of the stream
wins (`none` when the stream is empty). Modelled from the spec: the
Alignment Decoder (fastaio.ReadEncodeAlignment, not in the sources)
"consumes a sequence of (name, raw-sequence-text) pairs in arrival order
and produces Encoded Sequences", i.e. it emits every record of the input
stream, in input order, on its channel before signalling done. -/
def loadRefSeq (refRecords : List (List Nat)) : Option (List Nat) :=
  refRecords.foldl (fun _ seq => some seq) none

/-- The per-query results of the snps pipeline, in input order (the
records the workers hand to the writer; indices are assigned in input
order by the decoder): `none` when the pipeline dies (no reference record,
or an out-of-range panic in getSNPs). -/
def snpsResultLines (refRecords : List (List Nat))
    (queries : List (String × List Nat)) (DA : Nat → String) :
    Option (List snpLine) :=
  match loadRefSeq refRecords with
  | none => none
  | some refSeq =>
      queries.enum.mapM (fun p => getSNPsLine refSeq p.2.1 p.1 p.2.2 DA)

end Snps

/-! ## Lemmas about the pairwise comparison counts -/

namespace Closest

lemma pairCounts_foldl (Z : List (Nat × Nat)) (a b : Nat) :
    Z.foldl (fun acc p =>
      let x := p.1
      let y := p.2
      let different := x.land y < 16
      let same := x.land 8 = 8 ∧ x = y
      ((if different then acc.1 + 1 else acc.1),
        (if different ∨ same then acc.2 + 1 else acc.2))) (a, b) =
    (a + (Z.filter fun c => decide (colDifferent c.1 c.2)).length,
      b + (Z.filter fun c => decide (colDifferent c.1 c.2)).length
        + (Z.filter fun c => decide (colSameOnly c.1 c.2)).length) := by
  induction Z generalizing a b with
  | nil => simp
  | cons c Z ih =>
    rw [List.foldl_cons]
    show List.foldl _
        ((if colDifferent c.1 c.2 then a + 1 else a),
          (if colDifferent c.1 c.2 ∨ colSameConfirmed c.1 c.2 then b + 1 else b)) Z = _
    rw [ih]
    by_cases hd : colDifferent c.1 c.2 <;> by_cases hs : colSameConfirmed c.1 c.2 <;>
      simp_all [List.filter_cons, colSameOnly] <;> omega

lemma pairCounts_eq (t q : List Nat) :
    pairCounts t q = (countDifferent t q, countDifferent t q + countSameOnly t q) := by
  have h := pairCounts_foldl (t.zip q) 0 0
  simpa [pairCounts, countDifferent, countSameOnly] using h

lemma count_partition (t q : List Nat) :
    countDifferent t q + countSameOnly t q + countUninformative t q = (t.zip q).length := by
  unfold countDifferent countSameOnly countUninformative
  induction t.zip q with
  | nil => simp
  | cons c Z ih =>
    by_cases hd : colDifferent c.1 c.2 <;> by_cases hs : colSameConfirmed c.1 c.2 <;>
      simp_all [List.filter_cons, colSameOnly, colUninformative] <;> omega

lemma foldl_collect (l : List Nat) (p : Nat → Prop) [DecidablePred p] (g : Nat → String) :
    ∀ acc : List String,
      l.foldl (fun S r => if p r then S ++ [g r] else S) acc
        = acc ++ (l.filter fun r => decide (p r)).map g := by
  induction l with
  | nil => simp
  | cons r l ih =>
    intro acc
    by_cases h : p r <;> simp [List.filter_cons, h, ih]

lemma getSNPs_eq_filter (q t : List Nat) (DA : Nat → String) :
    getSNPs q t DA
      = ((List.range t.length).filter fun r =>
            decide ((q.getD r 0).land (t.getD r 0) < 16)).map
          (fun r => toString (r + 1) ++ DA (q.getD r 0) ++ DA (t.getD r 0)) := by
  have h := foldl_collect (List.range t.length)
    (fun r => (q.getD r 0).land (t.getD r 0) < 16)
    (fun r => toString (r + 1) ++ DA (q.getD r 0) ++ DA (t.getD r 0)) []
  simpa [getSNPs] using h

lemma finMin_le_self (L : List GFloat) : ∀ m : ℚ, finMin m L ≤ m := by
  induction L with
  | nil => intro m; exact le_refl m
  | cons x rest ih =>
    intro m
    match x with
    | none => exact ih m
    | some v =>
      refine le_trans (ih _) ?_
      split
      · exact le_of_lt (by assumption)
      · exact le_refl m

lemma finMin_le_of_mem (L : List GFloat) : ∀ (m v : ℚ), some v ∈ L → finMin m L ≤ v := by
  induction L with
  | nil => intro m v h; exact absurd h (List.not_mem_nil _)
  | cons x rest ih =>
    intro m v h
    rcases List.mem_cons.mp h with hx | hmem
    · subst hx
      show finMin (if v < m then v else m) rest ≤ v
      refine le_trans (finMin_le_self rest _) ?_
      split
      · exact le_refl v
      · exact le_of_not_lt (by assumption)
    · match x with
      | none => exact ih m v hmem
      | some w => exact ih _ v hmem

lemma le_finMin (L : List GFloat) : ∀ (n m : ℚ), n ≤ m →
    (∀ v : ℚ, some v ∈ L → n ≤ v) → n ≤ finMin m L := by
  induction L with
  | nil => intro n m hm _; exact hm
  | cons x rest ih =>
    intro n m hm h
    match x with
    | none => exact ih n m hm (fun v hv => h v (List.mem_cons_of_mem _ hv))
    | some v =>
      show n ≤ finMin (if v < m then v else m) rest
      refine ih n _ ?_ (fun w hw => h w (List.mem_cons_of_mem _ hw))
      split
      · exact h v (List.mem_cons_self _ _)
      · exact hm

lemma finMin_eq_self_or_mem (L : List GFloat) :
    ∀ m : ℚ, finMin m L = m ∨ some (finMin m L) ∈ L := by
  induction L with
  | nil => intro m; exact Or.inl rfl
  | cons x rest ih =>
    intro m
    match x with
    | none =>
      rcases ih m with h | h
      · exact Or.inl h
      · exact Or.inr (List.mem_cons_of_mem _ h)
    | some v =>
      show finMin (if v < m then v else m) rest = m ∨ _
      rcases ih (if v < m then v else m) with h | h
      · by_cases hv : v < m
        · rw [if_pos hv] at h
          refine Or.inr ?_
          show some (finMin (if v < m then v else m) rest) ∈ some v :: rest
          rw [if_pos hv, h]
          exact List.mem_cons_self _ _
        · rw [if_neg hv] at h
          left
          show finMin (if v < m then v else m) rest = m
          rw [if_neg hv]
          exact h
      · refine Or.inr (List.mem_cons_of_mem _ ?_)
        exact h

lemma minScan_none (L : List GFloat) : ∀ (k : Nat) (I : List Nat), k ≠ 0 →
    minScan L k none I = (none, I) := by
  induction L with
  | nil => intro k I _; rfl
  | cons x rest ih =>
    intro k I hk
    have hfeq : feq x none = false := by cases x <;> rfl
    have hflt : flt x none = false := by cases x <;> rfl
    simp only [minScan, if_neg hk, hfeq, hflt, Bool.false_eq_true, if_false]
    exact ih (k + 1) I (Nat.succ_ne_zero k)

lemma minScan_spec (L : List GFloat) : ∀ (k : Nat) (m : ℚ) (I : List Nat), k ≠ 0 →
    minScan L k (some m) I =
      (some (finMin m L),
        (if finMin m L = m then I else []) ++ matchIdx (finMin m L) L k) := by
  induction L with
  | nil =>
    intro k m I _
    simp [minScan, finMin, matchIdx]
  | cons x rest ih =>
    intro k m I hk
    match x with
    | none =>
      have hfeq : feq none (some m) = false := rfl
      have hflt : flt none (some m) = false := rfl
      simp only [minScan, if_neg hk, hfeq, hflt, Bool.false_eq_true, if_false]
      rw [ih (k + 1) m I (Nat.succ_ne_zero k)]
      simp [finMin, matchIdx]
    | some v =>
      by_cases hvm : v = m
      · subst hvm
        have hfeq : feq (some v) (some v) = true := by simp [feq]
        simp only [minScan, if_neg hk, hfeq, if_true]
        rw [ih (k + 1) v (I ++ [k]) (Nat.succ_ne_zero k)]
        have hfm : finMin v (some v :: rest) = finMin v rest := by
          simp [finMin]
        rw [hfm]
        by_cases hfin : finMin v rest = v
        · simp only [if_pos hfin, matchIdx, hfin]
          simp
        · simp only [if_neg hfin, matchIdx]
          have : ¬ (some v = some (finMin v rest)) := by
            intro hc
            exact hfin (Option.some_inj.mp hc).symm
          simp [this]
      · by_cases hlt : v < m
        · have hfeq : feq (some v) (some m) = false := by simp [feq, hvm]
          have hflt : flt (some v) (some m) = true := by simp [flt, hlt]
          simp only [minScan, if_neg hk, hfeq, Bool.false_eq_true, if_false, hflt, if_true]
          rw [ih (k + 1) v [k] (Nat.succ_ne_zero k)]
          have hfm : finMin m (some v :: rest) = finMin v rest := by
            simp [finMin, if_pos hlt]
          rw [hfm]
          have hne : finMin v rest ≠ m := by
            have := finMin_le_self rest v
            intro hc
            rw [hc] at this
            exact absurd (lt_of_le_of_lt this hlt) (lt_irrefl m)
          rw [if_neg hne]
          by_cases hfv : finMin v rest = v
          · simp only [matchIdx, hfv]
            simp
          · have : ¬ (some v = some (finMin v rest)) := by
              intro hc
              exact hfv (Option.some_inj.mp hc).symm
            simp only [matchIdx, if_neg this]
            simp [if_neg hfv]
        · have hfeq : feq (some v) (some m) = false := by simp [feq, hvm]
          have hflt : flt (some v) (some m) = false := by simp [flt, hlt]
          simp only [minScan, if_neg hk, hfeq, hflt, Bool.false_eq_true, if_false]
          rw [ih (k + 1) m I (Nat.succ_ne_zero k)]
          have hfm : finMin m (some v :: rest) = finMin m rest := by
            simp [finMin, if_neg hlt]
          rw [hfm]
          have : ¬ (some v = some (finMin m rest)) := by
            intro hc
            have hle := finMin_le_self rest m
            rw [← Option.some_inj.mp hc] at hle
            exact hlt (lt_of_le_of_ne hle hvm)
          simp only [matchIdx, if_neg this]
          simp

lemma getMinFloatIndices_nanHead (rest : List GFloat) :
    getMinFloatIndices (none :: rest) = [0] := by
  unfold getMinFloatIndices
  rw [show minScan (none :: rest) 0 (some 0) []
      = minScan rest 1 none ([] ++ [0]) from rfl]
  rw [minScan_none rest 1 ([] ++ [0]) one_ne_zero]
  rfl

lemma getMinFloatIndices_cons (q : ℚ) (rest : List GFloat) :
    getMinFloatIndices (some q :: rest) = matchIdx (finMin q rest) (some q :: rest) 0 := by
  unfold getMinFloatIndices
  rw [show minScan (some q :: rest) 0 (some 0) []
      = minScan rest 1 (some q) [0] from rfl]
  rw [minScan_spec rest 1 q [0] one_ne_zero]
  show (if finMin q rest = q then [0] else []) ++ matchIdx (finMin q rest) rest 1 = _
  by_cases hf : finMin q rest = q
  · have : some q = some (finMin q rest) := by rw [hf]
    simp only [matchIdx, if_pos this, if_pos hf]
  · have : ¬ (some q = some (finMin q rest)) := by
      intro hc
      exact hf (Option.some_inj.mp hc).symm
    simp only [matchIdx, if_neg this, if_neg hf, List.nil_append]

lemma matchIdx_mem (m : ℚ) (L : List GFloat) : ∀ (k i : Nat),
    i ∈ matchIdx m L k ↔ ∃ j, L[j]? = some (some m) ∧ i = k + j := by
  induction L with
  | nil =>
    intro k i
    simp [matchIdx]
  | cons x rest ih =>
    intro k i
    simp only [matchIdx, List.mem_append]
    constructor
    · intro h
      rcases h with h | h
      · refine ⟨0, ?_, ?_⟩
        · by_cases hx : x = some m
          · simp [hx]
          · rw [if_neg hx] at h
            exact absurd h (List.not_mem_nil i)
        · by_cases hx : x = some m
          · rw [if_pos hx] at h
            have := List.mem_singleton.mp h
            omega
          · rw [if_neg hx] at h
            exact absurd h (List.not_mem_nil i)
      · obtain ⟨j, hj, hi⟩ := (ih (k + 1) i).mp h
        exact ⟨j + 1, by simpa using hj, by omega⟩
    · rintro ⟨j, hj, hi⟩
      match j with
      | 0 =>
        left
        simp only [List.getElem?_cons_zero, Option.some_inj] at hj
        rw [if_pos hj]
        simp [hi]
      | j + 1 =>
        right
        refine (ih (k + 1) i).mpr ⟨j, by simpa using hj, by omega⟩

lemma matchIdx_ge (m : ℚ) (L : List GFloat) (k i : Nat) (h : i ∈ matchIdx m L k) : k ≤ i := by
  obtain ⟨j, _, hi⟩ := (matchIdx_mem m L k i).mp h
  omega

lemma matchIdx_sorted (m : ℚ) (L : List GFloat) : ∀ k, List.Pairwise (· < ·) (matchIdx m L k) := by
  induction L with
  | nil => intro k; simp [matchIdx]
  | cons x rest ih =>
    intro k
    by_cases hx : x = some m
    · simp only [matchIdx, if_pos hx, List.singleton_append]
      refine List.Pairwise.cons ?_ (ih (k + 1))
      intro b hb
      have := matchIdx_ge m rest (k + 1) b hb
      omega
    · simp only [matchIdx, if_neg hx, List.nil_append]
      exact ih (k + 1)

lemma le_finMax_self (L : List Int) : ∀ m : Int, m ≤ finMax m L := by
  induction L with
  | nil => intro m; exact le_refl m
  | cons v rest ih =>
    intro m
    refine le_trans ?_ (ih _)
    split
    · exact le_of_lt (by assumption)
    · exact le_refl m

lemma le_finMax_of_mem (L : List Int) : ∀ (m v : Int), v ∈ L → v ≤ finMax m L := by
  induction L with
  | nil => intro m v h; exact absurd h (List.not_mem_nil _)
  | cons x rest ih =>
    intro m v h
    rcases List.mem_cons.mp h with hx | hmem
    · subst hx
      show v ≤ finMax (if m < v then v else m) rest
      refine le_trans ?_ (le_finMax_self rest _)
      split
      · exact le_refl v
      · exact le_of_not_lt (by assumption)
    · exact ih _ v hmem

lemma finMax_le (L : List Int) : ∀ (n m : Int), m ≤ n →
    (∀ v : Int, v ∈ L → v ≤ n) → finMax m L ≤ n := by
  induction L with
  | nil => intro n m hm _; exact hm
  | cons v rest ih =>
    intro n m hm h
    show finMax (if m < v then v else m) rest ≤ n
    refine ih n _ ?_ (fun w hw => h w (List.mem_cons_of_mem _ hw))
    split
    · exact h v (List.mem_cons_self _ _)
    · exact hm

lemma finMax_eq_self_or_mem (L : List Int) :
    ∀ m : Int, finMax m L = m ∨ finMax m L ∈ L := by
  induction L with
  | nil => intro m; exact Or.inl rfl
  | cons v rest ih =>
    intro m
    show finMax (if m < v then v else m) rest = m ∨ _
    rcases ih (if m < v then v else m) with h | h
    · by_cases hv : m < v
      · rw [if_pos hv] at h
        refine Or.inr ?_
        show finMax (if m < v then v else m) rest ∈ v :: rest
        rw [if_pos hv, h]
        exact List.mem_cons_self _ _
      · left
        show finMax (if m < v then v else m) rest = m
        rw [if_neg hv] at h ⊢
        exact h
    · exact Or.inr (List.mem_cons_of_mem _ h)

lemma maxScan_spec (L : List Int) : ∀ (k : Nat) (m : Int) (I : List Nat), k ≠ 0 →
    maxScan L k m I =
      (finMax m L,
        (if finMax m L = m then I else []) ++ matchIdxInt (finMax m L) L k) := by
  induction L with
  | nil =>
    intro k m I _
    simp [maxScan, finMax, matchIdxInt]
  | cons v rest ih =>
    intro k m I hk
    by_cases hvm : v = m
    · subst hvm
      simp only [maxScan, if_neg hk, if_pos rfl]
      rw [ih (k + 1) v (I ++ [k]) (Nat.succ_ne_zero k)]
      have hfm : finMax v (v :: rest) = finMax v rest := by
        simp [finMax]
      rw [hfm]
      by_cases hfin : finMax v rest = v
      · simp only [if_pos hfin, matchIdxInt, hfin, if_pos rfl]
        simp
      · simp only [if_neg hfin, matchIdxInt]
        have hne : ¬ (v = finMax v rest) := fun hc => hfin hc.symm
        simp [hne]
    · by_cases hlt : m < v
      · simp only [maxScan, if_neg hk, if_neg hvm, if_pos hlt]
        rw [ih (k + 1) v [k] (Nat.succ_ne_zero k)]
        have hfm : finMax m (v :: rest) = finMax v rest := by
          simp [finMax, if_pos hlt]
        rw [hfm]
        have hne : finMax v rest ≠ m := by
          have := le_finMax_self rest v
          intro hc
          rw [hc] at this
          exact absurd (lt_of_lt_of_le hlt this) (lt_irrefl m)
        rw [if_neg hne]
        by_cases hfv : finMax v rest = v
        · simp only [matchIdxInt, hfv, if_pos rfl]
          simp
        · have hne2 : ¬ (v = finMax v rest) := fun hc => hfv hc.symm
          simp only [matchIdxInt, if_neg hne2]
          simp [if_neg hfv]
      · simp only [maxScan, if_neg hk, if_neg hvm, if_neg hlt]
        rw [ih (k + 1) m I (Nat.succ_ne_zero k)]
        have hfm : finMax m (v :: rest) = finMax m rest := by
          simp [finMax, if_neg hlt]
        rw [hfm]
        have hne : ¬ (v = finMax m rest) := by
          intro hc
          have hle := le_finMax_self rest m
          rw [← hc] at hle
          exact hlt (lt_of_le_of_ne hle (fun hc2 => hvm hc2.symm))
        simp only [matchIdxInt, if_neg hne]
        simp

lemma getMaxIntIndices_cons (v : Int) (rest : List Int) :
    getMaxIntIndices (v :: rest) = matchIdxInt (finMax v rest) (v :: rest) 0 := by
  unfold getMaxIntIndices
  rw [show maxScan (v :: rest) 0 0 [] = maxScan rest 1 v [0] from rfl]
  rw [maxScan_spec rest 1 v [0] one_ne_zero]
  show (if finMax v rest = v then [0] else []) ++ matchIdxInt (finMax v rest) rest 1 = _
  by_cases hf : finMax v rest = v
  · have : v = finMax v rest := hf.symm
    simp only [matchIdxInt, if_pos this, if_pos hf]
  · have : ¬ (v = finMax v rest) := fun hc => hf hc.symm
    simp only [matchIdxInt, if_neg this, if_neg hf, List.nil_append]

lemma matchIdxInt_mem (m : Int) (L : List Int) : ∀ (k i : Nat),
    i ∈ matchIdxInt m L k ↔ ∃ j, L[j]? = some m ∧ i = k + j := by
  induction L with
  | nil =>
    intro k i
    simp [matchIdxInt]
  | cons x rest ih =>
    intro k i
    simp only [matchIdxInt, List.mem_append]
    constructor
    · intro h
      rcases h with h | h
      · by_cases hx : x = m
        · rw [if_pos hx] at h
          have := List.mem_singleton.mp h
          exact ⟨0, by simp [hx], by omega⟩
        · rw [if_neg hx] at h
          exact absurd h (List.not_mem_nil i)
      · obtain ⟨j, hj, hi⟩ := (ih (k + 1) i).mp h
        exact ⟨j + 1, by simpa using hj, by omega⟩
    · rintro ⟨j, hj, hi⟩
      match j with
      | 0 =>
        left
        simp only [List.getElem?_cons_zero, Option.some_inj] at hj
        rw [if_pos hj]
        simp [hi]
      | j + 1 =>
        right
        refine (ih (k + 1) i).mpr ⟨j, by simpa using hj, by omega⟩

lemma matchIdxInt_ge (m : Int) (L : List Int) (k i : Nat) (h : i ∈ matchIdxInt m L k) :
    k ≤ i := by
  obtain ⟨j, _, hi⟩ := (matchIdxInt_mem m L k i).mp h
  omega

lemma matchIdxInt_sorted (m : Int) (L : List Int) :
    ∀ k, List.Pairwise (· < ·) (matchIdxInt m L k) := by
  induction L with
  | nil => intro k; simp [matchIdxInt]
  | cons x rest ih =>
    intro k
    by_cases hx : x = m
    · simp only [matchIdxInt, if_pos hx, List.singleton_append]
      refine List.Pairwise.cons ?_ (ih (k + 1))
      intro b hb
      have := matchIdxInt_ge m rest (k + 1) b hb
      omega
    · simp only [matchIdxInt, if_neg hx, List.nil_append]
      exact ih (k + 1)

lemma one_lt_length_of_two_mem {l : List Nat} {i j : Nat}
    (hi : i ∈ l) (hj : j ∈ l) (hij : i ≠ j) : 1 < l.length := by
  match l with
  | [] => exact absurd hi (List.not_mem_nil i)
  | [x] =>
    rw [List.mem_singleton] at hi hj
    exact absurd (hi.trans hj.symm) hij
  | x :: y :: rest => simp only [List.length_cons]; omega

lemma cons_le_finMax (hd a : Int) (tl : List Int) (h : a ∈ hd :: tl) :
    a ≤ finMax hd tl := by
  rcases List.mem_cons.mp h with h | h
  · subst h
    exact le_finMax_self tl a
  · exact le_finMax_of_mem tl hd a h

lemma finMax_mem_cons (hd : Int) (tl : List Int) : finMax hd tl ∈ hd :: tl := by
  rcases finMax_eq_self_or_mem tl hd with h | h
  · rw [h]
    exact List.mem_cons_self _ _
  · exact List.mem_cons_of_mem _ h

lemma bestPick_spec (V : List GFloat) (C : List Int) (q m : ℚ)
    (hhead : V.head? = some (some q))
    (hmin : ∀ (i : Nat) (v : ℚ), V[i]? = some (some v) → m ≤ v)
    (i j : Nat) (hij : i ≠ j)
    (hi : V[i]? = some (some m)) (hj : V[j]? = some (some m)) :
    V[getBestTargetIndex V C]? = some (some m) ∧
    (∀ t : Nat, V[t]? = some (some m) →
      C.getD t 0 ≤ C.getD (getBestTargetIndex V C) 0) ∧
    (∀ t : Nat, V[t]? = some (some m) →
      C.getD t 0 = C.getD (getBestTargetIndex V C) 0 → getBestTargetIndex V C ≤ t) := by
  cases V with
  | nil => simp at hhead
  | cons x rest =>
  have hx : x = some q := by simpa using hhead
  subst hx
  -- the running minimum of the scan is exactly m
  have hm : finMin q rest = m := by
    have h1 : m ≤ finMin q rest := by
      refine le_finMin rest m q (hmin 0 q (by simp)) ?_
      intro v hv
      obtain ⟨jj, hjj⟩ := List.mem_iff_getElem?.mp hv
      exact hmin (jj + 1) v (by simpa using hjj)
    have h2 : finMin q rest ≤ m := by
      match i, hi with
      | 0, hi =>
        have hqm : q = m := by simpa using hi
        rw [← hqm]
        exact finMin_le_self rest q
      | (ii + 1), hi =>
        refine finMin_le_of_mem rest q m ?_
        have hi2 : rest[ii]? = some (some m) := by simpa using hi
        exact List.mem_iff_getElem?.mpr ⟨ii, hi2⟩
    exact le_antisymm h2 h1
  have hMeq : getMinFloatIndices (some q :: rest) = matchIdx m (some q :: rest) 0 := by
    rw [getMinFloatIndices_cons, hm]
  have hmem : ∀ t : Nat, t ∈ getMinFloatIndices (some q :: rest) ↔
      (some q :: rest)[t]? = some (some m) := by
    intro t
    rw [hMeq, matchIdx_mem]
    constructor
    · rintro ⟨jj, hjj, rfl⟩
      simpa using hjj
    · intro h
      exact ⟨t, h, by omega⟩
  set M := getMinFloatIndices (some q :: rest) with hMdef
  have hiM : i ∈ M := (hmem i).mpr hi
  have hjM : j ∈ M := (hmem j).mpr hj
  have hlen : 1 < M.length := one_lt_length_of_two_mem hiM hjM hij
  have hMsorted : List.Pairwise (· < ·) M := by
    rw [hMeq]
    exact matchIdx_sorted m _ 0
  obtain ⟨M0, Mtail, hMcons⟩ : ∃ M0 Mtail, M = M0 :: Mtail := by
    cases hc : M with
    | nil => rw [hc] at hlen; simp at hlen
    | cons a b => exact ⟨a, b, rfl⟩
  -- the completeness slice and its maximum
  have hcs : M.map (fun t => C.getD t 0)
      = (C.getD M0 0) :: Mtail.map (fun t => C.getD t 0) := by
    rw [hMcons, List.map_cons]
  set mx := finMax (C.getD M0 0) (Mtail.map (fun t => C.getD t 0)) with hmxdef
  have hMax : getMaxIntIndices (M.map (fun t => C.getD t 0))
      = matchIdxInt mx (M.map (fun t => C.getD t 0)) 0 := by
    rw [hcs, getMaxIntIndices_cons, ← hmxdef, ← hcs]
  have hcsmem : ∀ p : Nat, p ∈ matchIdxInt mx (M.map (fun t => C.getD t 0)) 0 ↔
      (M.map (fun t => C.getD t 0))[p]? = some mx := by
    intro p
    rw [matchIdxInt_mem]
    constructor
    · rintro ⟨jj, hjj, rfl⟩
      simpa using hjj
    · intro h
      exact ⟨p, h, by omega⟩
  have hmxmem : mx ∈ M.map (fun t => C.getD t 0) := by
    rw [hcs]
    exact finMax_mem_cons _ _
  obtain ⟨pmx, hpmx⟩ := List.mem_iff_getElem?.mp hmxmem
  have hmatchne : matchIdxInt mx (M.map (fun t => C.getD t 0)) 0 ≠ [] := by
    intro hnil
    have := (hcsmem pmx).mpr hpmx
    rw [hnil] at this
    exact List.not_mem_nil pmx this
  obtain ⟨p0, ptail, hp0cons⟩ := List.exists_cons_of_ne_nil hmatchne
  have hp0mem : p0 ∈ matchIdxInt mx (M.map (fun t => C.getD t 0)) 0 := by
    rw [hp0cons]
    exact List.mem_cons_self _ _
  have hp0cs : (M.map (fun t => C.getD t 0))[p0]? = some mx := (hcsmem p0).mp hp0mem
  have hp0least : ∀ p : Nat, p ∈ matchIdxInt mx (M.map (fun t => C.getD t 0)) 0 → p0 ≤ p := by
    intro p hp
    have hsorted := matchIdxInt_sorted mx (M.map (fun t => C.getD t 0)) 0
    rw [hp0cons] at hsorted hp
    rcases List.mem_cons.mp hp with h | h
    · omega
    · exact le_of_lt (List.rel_of_pairwise_cons hsorted h)
  -- the selector takes the completeness branch and returns M[p0]
  have hbest : getBestTargetIndex (some q :: rest) C = M.getD p0 0 := by
    simp only [getBestTargetIndex]
    rw [← hMdef, if_pos hlen, hMax, hp0cons]
    rfl
  have hp0len : p0 < M.length := by
    have := List.getElem?_eq_some.mp hp0cs
    simpa using this.1
  have hrget : M.getD p0 0 = M.get ⟨p0, hp0len⟩ := by
    simp [List.getD_eq_getElem?_getD, List.getElem?_eq_getElem hp0len, List.get_eq_getElem]
  have hrM : M.getD p0 0 ∈ M := by
    rw [hrget]
    exact List.get_mem M p0 hp0len
  have hM0 : M[p0]? = some (M.getD p0 0) := by
    rw [List.getElem?_eq_getElem hp0len, hrget]
    simp [List.get_eq_getElem]
  have hrfC : C.getD (M.getD p0 0) 0 = mx := by
    have h1 : (M.map (fun t => C.getD t 0))[p0]? = some (C.getD (M.getD p0 0) 0) := by
      rw [List.getElem?_map, hM0]
      rfl
    rw [h1] at hp0cs
    exact (Option.some_inj.mp hp0cs)
  rw [hbest]
  refine ⟨(hmem _).mp hrM, ?_, ?_⟩
  · intro t ht
    have htM : t ∈ M := (hmem t).mpr ht
    have : C.getD t 0 ∈ M.map (fun u => C.getD u 0) := List.mem_map_of_mem _ htM
    rw [hcs] at this
    rw [hrfC]
    exact cons_le_finMax _ _ _ this
  · intro t ht hC
    have htM : t ∈ M := (hmem t).mpr ht
    obtain ⟨pt, hpt⟩ := List.mem_iff_getElem?.mp htM
    have hptlen : pt < M.length := by
      have := List.getElem?_eq_some.mp hpt
      exact this.1
    have hptget : M.get ⟨pt, hptlen⟩ = t := by
      have := List.getElem?_eq_some.mp hpt
      obtain ⟨h2, e⟩ := this
      simpa [List.get_eq_getElem] using e
    have hptcs : (M.map (fun u => C.getD u 0))[pt]? = some mx := by
      rw [List.getElem?_map, hpt]
      show some (C.getD t 0) = some mx
      rw [hC, hrfC]
    have hptmem : pt ∈ matchIdxInt mx (M.map (fun u => C.getD u 0)) 0 :=
      (hcsmem pt).mpr hptcs
    have hle : p0 ≤ pt := hp0least pt hptmem
    rcases Nat.lt_or_ge p0 pt with hlt | hge
    · have := List.pairwise_iff_get.mp hMsorted ⟨p0, hp0len⟩ ⟨pt, hptlen⟩ hlt
      rw [hrget, ← hptget]
      exact le_of_lt this
    · have hpe : p0 = pt := le_antisymm hle hge
      subst hpe
      rw [hrget, ← hptget]

lemma getBestTargetIndex_nanHead (rest : List GFloat) (C : List Int) :
    getBestTargetIndex (none :: rest) C = 0 := by
  simp only [getBestTargetIndex]
  rw [getMinFloatIndices_nanHead]
  simp

end Closest

/-! ## Lemmas about the snps writer -/

namespace Snps

lemma loadRefSeq_append (rs : List (List Nat)) (r : List Nat) :
    loadRefSeq (rs ++ [r]) = some r := by
  unfold loadRefSeq
  rw [List.foldl_append]
  rfl

lemma mapLookup_insert (k : Nat) (v : snpLine) :
    ∀ (m : List (Nat × snpLine)) (key : Nat),
      mapLookup (mapInsert m k v) key = if k = key then some v else mapLookup m key := by
  intro m
  induction m with
  | nil =>
    intro key
    simp only [mapInsert, mapLookup]
  | cons p rest ih =>
    intro key
    obtain ⟨pk, pv⟩ := p
    by_cases hpk : pk = k
    · subst hpk
      simp only [mapInsert, if_pos rfl, mapLookup]
      by_cases h : pk = key
      · simp only [if_pos h]
      · simp only [if_neg h]
    · simp only [mapInsert, if_neg hpk, mapLookup, ih key]
      by_cases hp : pk = key
      · have hk : ¬ (k = key) := fun hc => hpk (hp.trans hc.symm)
        simp only [if_pos hp, if_neg hk]
      · simp only [if_neg hp]

lemma mapLookup_erase_ne (k : Nat) :
    ∀ (m : List (Nat × snpLine)) (key : Nat), key ≠ k →
      mapLookup (mapErase m k) key = mapLookup m key := by
  intro m
  induction m with
  | nil => intro key _; rfl
  | cons p rest ih =>
    intro key hkey
    obtain ⟨pk, pv⟩ := p
    by_cases hpk : pk = k
    · subst hpk
      have he : mapErase ((pk, pv) :: rest) pk = rest := by simp [mapErase]
      rw [he]
      simp only [mapLookup]
      rw [if_neg (fun hc => hkey hc.symm)]
    · simp only [mapErase, if_neg hpk, mapLookup, ih key hkey]

lemma mapLookup_not_mem_keys (k : Nat) :
    ∀ m : List (Nat × snpLine), k ∉ m.map Prod.fst → mapLookup m k = none := by
  intro m
  induction m with
  | nil => intro _; rfl
  | cons p rest ih =>
    intro h
    obtain ⟨pk, pv⟩ := p
    simp only [List.map_cons, List.mem_cons] at h
    push_neg at h
    simp only [mapLookup, if_neg (fun hc : pk = k => h.1 hc.symm)]
    exact ih h.2

lemma mapLookup_erase_self (k : Nat) :
    ∀ m : List (Nat × snpLine), (m.map Prod.fst).Nodup →
      mapLookup (mapErase m k) k = none := by
  intro m
  induction m with
  | nil => intro _; rfl
  | cons p rest ih =>
    intro hnd
    obtain ⟨pk, pv⟩ := p
    simp only [List.map_cons, List.nodup_cons] at hnd
    by_cases hpk : pk = k
    · subst hpk
      simp only [mapErase, if_pos rfl]
      exact mapLookup_not_mem_keys pk rest hnd.1
    · simp only [mapErase, if_neg hpk, mapLookup, if_neg hpk]
      exact ih hnd.2

lemma mem_keys_insert (k : Nat) (v : snpLine) :
    ∀ (m : List (Nat × snpLine)) (key : Nat),
      key ∈ (mapInsert m k v).map Prod.fst ↔ key = k ∨ key ∈ m.map Prod.fst := by
  intro m
  induction m with
  | nil =>
    intro key
    simp [mapInsert]
  | cons p rest ih =>
    intro key
    obtain ⟨pk, pv⟩ := p
    by_cases hpk : pk = k
    · subst hpk
      have hi : mapInsert ((pk, pv) :: rest) pk v = (pk, v) :: rest := by
        simp [mapInsert]
      rw [hi]
      simp only [List.map_cons, List.mem_cons]
      tauto
    · simp only [mapInsert, if_neg hpk, List.map_cons, List.mem_cons, ih key]
      tauto

lemma mem_keys_erase (k : Nat) :
    ∀ (m : List (Nat × snpLine)) (key : Nat),
      key ∈ (mapErase m k).map Prod.fst → key ∈ m.map Prod.fst := by
  intro m
  induction m with
  | nil => intro key h; exact h
  | cons p rest ih =>
    intro key h
    obtain ⟨pk, pv⟩ := p
    by_cases hpk : pk = k
    · subst hpk
      simp only [mapErase, if_pos rfl] at h
      simp only [List.map_cons, List.mem_cons]
      exact Or.inr h
    · simp only [mapErase, if_neg hpk, List.map_cons, List.mem_cons] at h
      simp only [List.map_cons, List.mem_cons]
      rcases h with h | h
      · exact Or.inl h
      · exact Or.inr (ih key h)

lemma nodup_keys_insert (k : Nat) (v : snpLine) :
    ∀ m : List (Nat × snpLine), (m.map Prod.fst).Nodup →
      ((mapInsert m k v).map Prod.fst).Nodup := by
  intro m
  induction m with
  | nil => intro _; simp [mapInsert]
  | cons p rest ih =>
    intro hnd
    obtain ⟨pk, pv⟩ := p
    simp only [List.map_cons, List.nodup_cons] at hnd
    by_cases hpk : pk = k
    · subst hpk
      have hi : mapInsert ((pk, pv) :: rest) pk v = (pk, v) :: rest := by
        simp [mapInsert]
      rw [hi]
      simp only [List.map_cons, List.nodup_cons]
      exact hnd
    · simp only [mapInsert, if_neg hpk, List.map_cons, List.nodup_cons]
      refine ⟨?_, ih hnd.2⟩
      intro hc
      rcases (mem_keys_insert k v rest pk).mp hc with h | h
      · exact hpk h
      · exact hnd.1 h

lemma nodup_keys_erase (k : Nat) :
    ∀ m : List (Nat × snpLine), (m.map Prod.fst).Nodup →
      ((mapErase m k).map Prod.fst).Nodup := by
  intro m
  induction m with
  | nil => intro h; exact h
  | cons p rest ih =>
    intro hnd
    obtain ⟨pk, pv⟩ := p
    simp only [List.map_cons, List.nodup_cons] at hnd
    by_cases hpk : pk = k
    · subst hpk
      simp only [mapErase, if_pos rfl]
      exact hnd.2
    · simp only [mapErase, if_neg hpk, List.map_cons, List.nodup_cons]
      exact ⟨fun hc => hnd.1 (mem_keys_erase k rest pk hc), ih hnd.2⟩

lemma length_insert_of_not_mem (k : Nat) (v : snpLine) :
    ∀ m : List (Nat × snpLine), mapLookup m k = none →
      (mapInsert m k v).length = m.length + 1 := by
  intro m
  induction m with
  | nil => intro _; rfl
  | cons p rest ih =>
    intro h
    obtain ⟨pk, pv⟩ := p
    simp only [mapLookup] at h
    by_cases hpk : pk = k
    · rw [if_pos hpk] at h
      exact absurd h (by simp)
    · rw [if_neg hpk] at h
      simp only [mapInsert, if_neg hpk, List.length_cons, ih h]

lemma length_erase_of_mem (k : Nat) :
    ∀ m : List (Nat × snpLine), mapLookup m k ≠ none →
      (mapErase m k).length + 1 = m.length := by
  intro m
  induction m with
  | nil => intro h; exact absurd rfl h
  | cons p rest ih =>
    intro h
    obtain ⟨pk, pv⟩ := p
    simp only [mapLookup] at h
    by_cases hpk : pk = k
    · simp only [mapErase, if_pos hpk, List.length_cons]
    · rw [if_neg hpk] at h
      simp only [mapErase, if_neg hpk, List.length_cons, ih h]

lemma streamStep_flush (s : WState) (a : snpLine) (j : Nat) (SL : snpLine)
    (hidx : a.idx = j)
    (h : mapLookup (mapInsert s.m j a) s.counter = some SL) :
    streamStep s a = ⟨mapErase (mapInsert s.m j a) s.counter,
      s.counter + 1, s.out ++ [SL]⟩ := by
  subst hidx
  simp only [streamStep, h]

lemma streamStep_hold (s : WState) (a : snpLine) (j : Nat)
    (hidx : a.idx = j)
    (h : mapLookup (mapInsert s.m j a) s.counter = none) :
    streamStep s a = ⟨mapInsert s.m j a, s.counter, s.out⟩ := by
  subst hidx
  simp only [streamStep, h]

lemma WInv_init (f : Nat → snpLine) : WInv f [] { m := [], counter := 0, out := [] } := by
  refine ⟨fun k hk => absurd hk (Nat.not_lt_zero k), fun k => ?_, rfl, rfl, List.nodup_nil⟩
  simp [mapLookup]

lemma WInv_step (f : Nat → snpLine) (hf : ∀ i : Nat, (f i).idx = i)
    (seen : List Nat) (s : WState) (hinv : WInv f seen s)
    (j : Nat) (hj : j ∉ seen) :
    WInv f (seen ++ [j]) (streamStep s (f j)) := by
  obtain ⟨hcnt, hchar, hout, hlen, hnd⟩ := hinv
  set c := s.counter with hc
  have hcj : c ≤ j := by
    by_contra hlt
    exact hj (hcnt j (Nat.lt_of_not_le hlt))
  have hjm : mapLookup s.m j = none := by
    rw [hchar j]
    simp [hj]
  have hm1 : ∀ key : Nat, mapLookup (mapInsert s.m j (f j)) key
      = if j = key then some (f j) else mapLookup s.m key :=
    fun key => mapLookup_insert j (f j) s.m key
  have hm1len : (mapInsert s.m j (f j)).length = s.m.length + 1 :=
    length_insert_of_not_mem j (f j) s.m hjm
  have hm1nd : ((mapInsert s.m j (f j)).map Prod.fst).Nodup :=
    nodup_keys_insert j (f j) s.m hnd
  by_cases hcase : c = j ∨ c ∈ seen
  · -- the next expected index is available: one record is flushed
    have hlook : mapLookup (mapInsert s.m j (f j)) c = some (f c) := by
      rw [hm1 c]
      by_cases hcj2 : c = j
      · rw [if_pos hcj2.symm, hcj2]
      · rw [if_neg (fun hcc => hcj2 hcc.symm), hchar c]
        rcases hcase with h | h
        · exact absurd h hcj2
        · simp [h]
    rw [streamStep_flush s (f j) j (f c) (hf j) hlook]
    refine ⟨?_, ?_, ?_, ?_, ?_⟩
    · show ∀ k : Nat, k < c + 1 → k ∈ seen ++ [j]
      intro k hk
      rcases Nat.lt_or_ge k c with h | h
      · exact List.mem_append_left _ (hcnt k h)
      · have hkc : k = c := by omega
        subst hkc
        rcases hcase with h2 | h2
        · exact List.mem_append_right _ (by simp [h2])
        · exact List.mem_append_left _ h2
    · show ∀ k : Nat, mapLookup (mapErase (mapInsert s.m j (f j)) c) k
        = if k ∈ seen ++ [j] ∧ c + 1 ≤ k then some (f k) else none
      intro k
      by_cases hkc : k = c
      · subst hkc
        rw [mapLookup_erase_self c (mapInsert s.m j (f j)) hm1nd]
        have hno : ¬ (c ∈ seen ++ [j] ∧ c + 1 ≤ c) := by
          intro hcc
          omega
        simp only [hno, if_false]
      · rw [mapLookup_erase_ne c (mapInsert s.m j (f j)) k (fun hcc => hkc hcc), hm1 k]
        by_cases hkj : k = j
        · subst hkj
          rw [if_pos rfl]
          have hmem : k ∈ seen ++ [k] := List.mem_append_right _ (by simp)
          have hck : c + 1 ≤ k := by
            rcases Nat.lt_or_ge c k with h | h
            · omega
            · exact absurd (by omega : k = c) hkc
          simp [hmem, hck]
        · rw [if_neg (fun hcc => hkj hcc.symm), hchar k]
          have hmem : k ∈ seen ++ [j] ↔ k ∈ seen := by
            simp [List.mem_append, hkj]
          by_cases h1 : k ∈ seen <;> by_cases h2 : c ≤ k
          · have h3 : c + 1 ≤ k := by omega
            simp [hmem, h1, h2, h3]
          · have h3 : ¬ (c + 1 ≤ k) := by omega
            simp [hmem, h1, h2, h3]
          · have h3 : c + 1 ≤ k := by omega
            simp [hmem, h1, h2, h3]
          · have h3 : ¬ (c + 1 ≤ k) := by omega
            simp [hmem, h1, h2, h3]
    · show s.out ++ [f c] = (List.range (c + 1)).map f
      rw [hout, List.range_succ, List.map_append]
      rfl
    · show (mapErase (mapInsert s.m j (f j)) c).length + (c + 1) = (seen ++ [j]).length
      have hsome : mapLookup (mapInsert s.m j (f j)) c ≠ none := by
        rw [hlook]
        simp
      have hE := length_erase_of_mem c (mapInsert s.m j (f j)) hsome
      rw [List.length_append]
      simp only [List.length_singleton]
      omega
    · show ((mapErase (mapInsert s.m j (f j)) c).map Prod.fst).Nodup
      exact nodup_keys_erase c _ hm1nd
  · -- the next expected index is still missing: nothing is flushed
    push_neg at hcase
    obtain ⟨hcj2, hcs⟩ := hcase
    have hlook : mapLookup (mapInsert s.m j (f j)) c = none := by
      rw [hm1 c, if_neg (fun hcc => hcj2 hcc.symm), hchar c]
      simp [hcs]
    rw [streamStep_hold s (f j) j (hf j) hlook]
    refine ⟨?_, ?_, ?_, ?_, ?_⟩
    · show ∀ k : Nat, k < c → k ∈ seen ++ [j]
      intro k hk
      exact List.mem_append_left _ (hcnt k hk)
    · show ∀ k : Nat, mapLookup (mapInsert s.m j (f j)) k
        = if k ∈ seen ++ [j] ∧ c ≤ k then some (f k) else none
      intro k
      rw [hm1 k]
      by_cases hkj : k = j
      · subst hkj
        rw [if_pos rfl]
        have hmem : k ∈ seen ++ [k] := List.mem_append_right _ (by simp)
        simp [hmem, hcj]
      · rw [if_neg (fun hcc => hkj hcc.symm), hchar k]
        have hmem : k ∈ seen ++ [j] ↔ k ∈ seen := by
          simp [List.mem_append, hkj]
        simp only [hmem]
    · show s.out = (List.range c).map f
      exact hout
    · show (mapInsert s.m j (f j)).length + c = (seen ++ [j]).length
      rw [hm1len, List.length_append]
      simp only [List.length_singleton]
      omega
    · show ((mapInsert s.m j (f j)).map Prod.fst).Nodup
      exact hm1nd

lemma streamPhase_inv (f : Nat → snpLine) (hf : ∀ i : Nat, (f i).idx = i) :
    ∀ (l : List Nat) (seen : List Nat) (s : WState),
      WInv f seen s → (∀ j ∈ l, j ∉ seen) → l.Nodup →
      WInv f (seen ++ l) (streamPhase s (l.map f)) := by
  intro l
  induction l with
  | nil =>
    intro seen s hinv _ _
    simpa [streamPhase] using hinv
  | cons j l ih =>
    intro seen s hinv hfresh hnd
    have hstep := WInv_step f hf seen s hinv j (hfresh j (List.mem_cons_self _ _))
    have hnd2 := (List.nodup_cons.mp hnd)
    have hres := ih (seen ++ [j]) (streamStep s (f j)) hstep ?_ hnd2.2
    · show WInv f (seen ++ j :: l) (streamPhase s ((j :: l).map f))
      have : (seen ++ [j]) ++ l = seen ++ j :: l := by
        rw [List.append_assoc]
        rfl
      rw [← this]
      exact hres
    · intro i hi
      rw [List.mem_append]
      push_neg
      refine ⟨hfresh i (List.mem_cons_of_mem _ hi), ?_⟩
      simp only [List.mem_singleton]
      intro hc
      exact hnd2.1 (hc ▸ hi)

lemma drain_spec (f : Nat → snpLine) :
    ∀ (fuel : Nat) (m : List (Nat × snpLine)) (cnt N : Nat),
      (∀ k : Nat, mapLookup m k = if k < N ∧ cnt ≤ k then some (f k) else none) →
      (m.map Prod.fst).Nodup →
      m.length + cnt = N → fuel = m.length →
      drain m cnt fuel = (List.range' cnt (N - cnt)).map f := by
  intro fuel
  induction fuel with
  | zero =>
    intro m cnt N hchar hnd hlen hfuel
    have hm : m = [] := List.length_eq_zero.mp hfuel.symm
    subst hm
    simp only [List.length_nil, Nat.zero_add] at hlen
    subst hlen
    simp [drain]
  | succ fuel ih =>
    intro m cnt N hchar hnd hlen hfuel
    have hne : m ≠ [] := by
      intro hc
      subst hc
      simp at hfuel
    have hcw : cnt < N := by
      have : 0 < m.length := List.length_pos.mpr hne
      omega
    have hlook : mapLookup m cnt = some (f cnt) := by
      rw [hchar cnt]
      simp [hcw]
    have hempty : m.isEmpty = false := by
      cases m with
      | nil => exact absurd rfl hne
      | cons a b => rfl
    have hdrain : drain m cnt (fuel + 1)
        = (mapLookup m cnt).getD default :: drain (mapErase m cnt) (cnt + 1) fuel := by
      simp only [drain, hempty, Bool.false_eq_true, if_false]
    rw [hdrain, hlook]
    have hlenE : (mapErase m cnt).length + 1 = m.length :=
      length_erase_of_mem cnt m (by rw [hlook]; simp)
    have hcharE : ∀ k : Nat, mapLookup (mapErase m cnt) k
        = if k < N ∧ cnt + 1 ≤ k then some (f k) else none := by
      intro k
      by_cases hkc : k = cnt
      · subst hkc
        rw [mapLookup_erase_self k m hnd]
        have : ¬ (k < N ∧ k + 1 ≤ k) := by omega
        simp [this]
      · rw [mapLookup_erase_ne cnt m k hkc, hchar k]
        by_cases h1 : k < N <;> by_cases h2 : cnt ≤ k <;>
          [skip; skip; skip; skip] <;>
          first
          | (have h3 : cnt + 1 ≤ k := by omega
             simp [h1, h2, h3])
          | (have h3 : ¬ (cnt + 1 ≤ k) := by omega
             simp [h1, h2, h3])
    have hrec := ih (mapErase m cnt) (cnt + 1) N hcharE
      (nodup_keys_erase cnt m hnd) (by omega) (by omega)
    rw [hrec]
    show f cnt :: _ = _
    have hNc : N - cnt = (N - (cnt + 1)) + 1 := by omega
    rw [hNc]
    have := List.range'_succ cnt (N - (cnt + 1)) 1
    rw [this]
    simp

lemma arr_eq_idx_map (f : Nat → snpLine) (hf : ∀ i : Nat, (f i).idx = i)
    (N : Nat) (arr : List snpLine) (harr : arr.Perm ((List.range N).map f)) :
    arr = (arr.map (fun a => a.idx)).map f := by
  have hpt : ∀ a ∈ arr, f a.idx = a := by
    intro a ha
    have := harr.mem_iff.mp ha
    obtain ⟨i, _, hi⟩ := List.mem_map.mp this
    rw [← hi, hf i]
  rw [List.map_map]
  have : arr.map (f ∘ fun a => a.idx) = arr.map id := by
    apply List.map_congr_left
    intro a ha
    exact hpt a ha
  rw [this, List.map_id]

end Snps

/-! ## Lemmas for the chunked closest run -/

namespace Closest

lemma foldlSet_untouched (arrivals : List (Nat × List String)) :
    ∀ (init : List (List String)) (j : Nat), j ∉ arrivals.map Prod.fst →
      (arrivals.foldl (fun acc p => acc.set p.1 p.2) init)[j]? = init[j]? := by
  induction arrivals with
  | nil => intro init j _; rfl
  | cons p rest ih =>
    intro init j hj
    obtain ⟨pk, pv⟩ := p
    simp only [List.map_cons, List.mem_cons] at hj
    push_neg at hj
    rw [List.foldl_cons, ih (init.set pk pv) j hj.2, List.getElem?_set_ne]
    exact fun hc => hj.1 hc.symm

lemma foldlSet_get (arrivals : List (Nat × List String)) :
    ∀ (init : List (List String)) (j : Nat) (v : List String),
      (arrivals.map Prod.fst).Nodup → (j, v) ∈ arrivals → j < init.length →
      (arrivals.foldl (fun acc p => acc.set p.1 p.2) init)[j]? = some v := by
  induction arrivals with
  | nil => intro init j v _ hmem _; exact absurd hmem (List.not_mem_nil _)
  | cons p rest ih =>
    intro init j v hnd hmem hj
    obtain ⟨pk, pv⟩ := p
    simp only [List.map_cons, List.nodup_cons] at hnd
    rw [List.foldl_cons]
    rcases List.mem_cons.mp hmem with he | hmem2
    · have hjp : j = pk := congrArg Prod.fst he
      have hvp : v = pv := congrArg Prod.snd he
      subst hjp
      subst hvp
      rw [foldlSet_untouched rest (init.set j v) j hnd.1]
      simp [List.getElem?_set_self, hj]
    · exact ih (init.set pk pv) j v hnd.2 hmem2 (by simpa using hj)

lemma foldlSet_length (arrivals : List (Nat × List String)) :
    ∀ init : List (List String),
      (arrivals.foldl (fun acc p => acc.set p.1 p.2) init).length = init.length := by
  induction arrivals with
  | nil => intro init; rfl
  | cons p rest ih =>
    intro init
    rw [List.foldl_cons, ih (init.set p.1 p.2), List.length_set]

lemma fillSlots_eq (N : Nat) (rows : Nat → List String)
    (arrivals : List (Nat × List String))
    (harr : arrivals.Perm ((List.range N).map (fun i => (i, rows i)))) :
    fillSlots N arrivals = (List.range N).map rows := by
  have hkeys : (arrivals.map Prod.fst).Perm (List.range N) := by
    have h1 := harr.map Prod.fst
    have h2 : ((List.range N).map (fun i => (i, rows i))).map Prod.fst = List.range N := by
      rw [List.map_map]
      exact List.map_id _
    rw [h2] at h1
    exact h1
  have hnd : (arrivals.map Prod.fst).Nodup := hkeys.nodup_iff.mpr (List.nodup_range N)
  apply List.ext_getElem?
  intro j
  by_cases hj : j < N
  · have hmem : (j, rows j) ∈ arrivals := by
      refine harr.mem_iff.mpr ?_
      exact List.mem_map.mpr ⟨j, List.mem_range.mpr hj, rfl⟩
    rw [fillSlots, foldlSet_get arrivals (List.replicate N []) j (rows j) hnd hmem
      (by simpa using hj), List.getElem?_map]
    rw [List.getElem?_range hj]
    rfl
  · have h1 : (fillSlots N arrivals).length ≤ j := by
      rw [fillSlots, foldlSet_length]
      simpa using Nat.le_of_not_lt hj
    have h2 : ((List.range N).map rows).length ≤ j := by
      simpa using Nat.le_of_not_lt hj
    rw [List.getElem?_eq_none h1, List.getElem?_eq_none h2]

lemma chunkOf_succ {α : Type} (l : List α) (cs N i : Nat) (hN : 1 ≤ N) :
    chunkOf l cs (N + 1) (i + 1) = chunkOf (l.drop cs) cs N i := by
  unfold chunkOf
  have hdd : (l.drop cs).drop (i * cs) = l.drop ((i + 1) * cs) := by
    rw [List.drop_drop]
    congr 1
    ring
  by_cases hi : i = N - 1
  · have hi2 : i + 1 = N + 1 - 1 := by omega
    rw [if_pos hi2, if_pos hi, hdd]
  · have hi2 : ¬ (i + 1 = N + 1 - 1) := by omega
    rw [if_neg hi2, if_neg hi, hdd]

lemma chunks_flatten {α : Type} (cs : Nat) :
    ∀ (N : Nat) (l : List α), 1 ≤ N →
      ((List.range N).map (fun i => chunkOf l cs N i)).flatten = l := by
  intro N
  induction N with
  | zero => intro l h; omega
  | succ N ih =>
    intro l _
    by_cases hN : N = 0
    · subst hN
      have h01 : List.range (0 + 1) = [0] := rfl
      rw [h01]
      simp [chunkOf]
    · have hN1 : 1 ≤ N := by omega
      rw [List.range_succ_eq_map, List.map_cons, List.map_map, List.flatten_cons]
      have hhead : chunkOf l cs (N + 1) 0 = l.take cs := by
        unfold chunkOf
        rw [if_neg (by omega), Nat.zero_mul, List.drop_zero]
      have htail : (List.range N).map ((fun i => chunkOf l cs (N + 1) i) ∘ Nat.succ)
          = (List.range N).map (fun i => chunkOf (l.drop cs) cs N i) := by
        apply List.map_congr_left
        intro i _
        exact chunkOf_succ l cs N i hN1
      rw [hhead, htail, ih (l.drop cs) hN1]
      exact List.take_append_drop cs l

lemma chunkOf_zip {α β : Type} (A : List α) (B : List β) (cs N i : Nat) :
    chunkOf (A.zip B) cs N i = (chunkOf A cs N i).zip (chunkOf B cs N i) := by
  unfold chunkOf
  split
  · exact List.drop_zipWith
  · rw [show (A.zip B).drop (i * cs) = (A.drop (i * cs)).zip (B.drop (i * cs)) from
      List.drop_zipWith]
    exact List.take_zipWith

lemma getD_map_range {α β : Type} (g : α → β) (d : α) (A : List α) :
    ∀ i : Nat, i < A.length → (A.map g).getD i (g d) = g (A.getD i d) := by
  intro i hi
  rw [List.getD_eq_getElem?_getD, List.getElem?_map, List.getElem?_eq_getElem hi]
  rw [List.getD_eq_getElem?_getD, List.getElem?_eq_getElem hi]
  rfl

lemma range_map_getD_zip {α β : Type} (g : α → β → String) (dA : α) (dB : β) :
    ∀ (A : List α) (B : List β), A.length = B.length →
      (List.range A.length).map (fun i => g (A.getD i dA) (B.getD i dB))
        = (A.zip B).map (fun p => g p.1 p.2) := by
  intro A
  induction A with
  | nil => intro B h; simp
  | cons a A ih =>
    intro B h
    cases B with
    | nil => simp at h
    | cons b B =>
      simp only [List.length_cons] at h
      have h2 : A.length = B.length := by omega
      show (List.range (A.length + 1)).map _ = _
      rw [List.range_succ_eq_map, List.map_cons, List.map_map, List.zip_cons_cons,
        List.map_cons]
      congr 1
      rw [← ih B h2]
      apply List.map_congr_left
      intro i _
      rfl

lemma getDiffMatrix_row (QA TA : List (List Nat)) (i : Nat) (hi : i < QA.length) :
    (getDifferenceMatrix QA TA).getD i []
      = TA.map (fun t => pairDistance t (QA.getD i [])) := by
  unfold getDifferenceMatrix
  rw [List.getD_eq_getElem?_getD, List.getElem?_map, List.getElem?_eq_getElem hi]
  rw [show QA.getD i [] = QA[i] from by
    rw [List.getD_eq_getElem?_getD, List.getElem?_eq_getElem hi]
    rfl]
  rfl

lemma processChunk_eq (QA : List (List Nat)) (Qnames : List String)
    (TA : List (List Nat)) (Tnames : List String) (targetScores : List Int)
    (nucDict : Nat → String) (h : QA.length = Qnames.length) :
    processChunk QA Qnames TA Tnames targetScores nucDict
      = (QA.zip Qnames).map (fun p => rowFor p.1 p.2 TA Tnames targetScores nucDict) := by
  unfold processChunk
  have hcong : (List.range QA.length).map (fun queryi =>
      let bestIndx := getBestTargetIndex ((getDifferenceMatrix QA TA).getD queryi [])
        targetScores
      let SNPs := getSNPs (QA.getD queryi []) (TA.getD bestIndx []) nucDict
      let SNPdistance := SNPs.length
      (Qnames.getD queryi "") ++ "," ++ (Tnames.getD bestIndx "") ++ ","
        ++ toString SNPdistance ++ "," ++ String.intercalate ";" SNPs ++ "\n")
      = (List.range QA.length).map (fun queryi =>
        rowFor (QA.getD queryi []) (Qnames.getD queryi "") TA Tnames targetScores nucDict) := by
    apply List.map_congr_left
    intro i hi
    have hi2 : i < QA.length := List.mem_range.mp hi
    simp only [rowFor, getDiffMatrix_row QA TA i hi2]
  rw [hcong]
  exact range_map_getD_zip
    (fun q qname => rowFor q qname TA Tnames targetScores nucDict) [] "" QA Qnames h

lemma chunkOf_length_eq {α β : Type} (A : List α) (B : List β) (cs N i : Nat)
    (h : A.length = B.length) :
    (chunkOf A cs N i).length = (chunkOf B cs N i).length := by
  unfold chunkOf
  split <;> simp [h]

end Closest

/-! ## Claim theorems -/

open Closest Snps

/-- C1: for every N records with indices 0..N-1 arriving at the writer in
any order, writeOutput emits the header line and then exactly one row per
record, in strictly ascending input-index order: the output equals the
input order. -/
theorem writeOutput_order_preserving (f : Nat → snpLine) (hf : ∀ i : Nat, (f i).idx = i)
    (N : Nat) (arr : List snpLine) (harr : arr.Perm ((List.range N).map f)) :
    writeOutput arr = "query,SNPs\n" :: (List.range N).map (fun i => renderLine (f i)) := by
  set l := arr.map (fun a => a.idx) with hldef
  have harrl : arr = l.map f := arr_eq_idx_map f hf N arr harr
  have hlperm : l.Perm (List.range N) := by
    have h1 := harr.map (fun a => a.idx)
    rw [← hldef] at h1
    have h2 : ((List.range N).map f).map (fun a => a.idx) = List.range N := by
      rw [List.map_map]
      have : (List.range N).map ((fun a => a.idx) ∘ f) = (List.range N).map id := by
        apply List.map_congr_left
        intro i _
        exact hf i
      rw [this, List.map_id]
    rw [h2] at h1
    exact h1
  have hlnd : l.Nodup := hlperm.nodup_iff.mpr (List.nodup_range N)
  have hlmem : ∀ k : Nat, k ∈ l ↔ k < N := by
    intro k
    rw [hlperm.mem_iff, List.mem_range]
  have hllen : l.length = N := by
    rw [hlperm.length_eq, List.length_range]
  have hfinal := streamPhase_inv f hf l [] { m := [], counter := 0, out := [] }
    (WInv_init f) (fun j _ => List.not_mem_nil j) hlnd
  rw [List.nil_append] at hfinal
  obtain ⟨hcnt, hchar, hout, hlen, hnd⟩ := hfinal
  set s := streamPhase { m := [], counter := 0, out := [] } (l.map f) with hsdef
  set c := s.counter with hcdef
  have hcN : s.m.length + c = N := by
    rw [← hllen]
    exact hlen
  have hchar2 : ∀ k : Nat, mapLookup s.m k = if k < N ∧ c ≤ k then some (f k) else none := by
    intro k
    rw [hchar k]
    by_cases h1 : k < N <;> by_cases h2 : c ≤ k <;>
      simp [hlmem k, h1, h2]
  have hdrain := drain_spec f s.m.length s.m c N hchar2 hnd hcN rfl
  rw [harrl]
  show "query,SNPs\n" :: (s.out ++ drain s.m s.counter s.m.length).map renderLine
    = "query,SNPs\n" :: (List.range N).map (fun i => renderLine (f i))
  rw [← hcdef, hdrain, hout, ← List.map_append]
  have hranges : List.range c ++ List.range' c (N - c) = List.range N := by
    have happ := List.range'_append 0 c (N - c) 1
    simp only [Nat.one_mul, Nat.zero_add] at happ
    have hn : N - c + c = N := by omega
    rw [hn] at happ
    rw [List.range_eq_range' c, List.range_eq_range' N, ← happ]
  rw [hranges, List.map_map]
  rfl

/-- C1 witness: three records arriving in order 2, 0, 1 are emitted in
index order after the header. -/
theorem writeOutput_order_preserving_witness :
    writeOutput [⟨"q2", [], 2⟩, ⟨"q0", [], 0⟩, ⟨"q1", ["1AT"], 1⟩]
      = ["query,SNPs\n", "q0,\n", "q1,1AT\n", "q2,\n"] := by
  have h := writeOutput_order_preserving
    (fun i => ⟨"q" ++ toString i, if i = 1 then ["1AT"] else [], i⟩) (fun i => rfl) 3
    [⟨"q2", [], 2⟩, ⟨"q0", [], 0⟩, ⟨"q1", ["1AT"], 1⟩] (by decide)
  exact h.trans (by decide)

/-- C3 counterexample: with two reference records, the snps pipeline
compares against the second record, not the first: each record received
from the decoder overwrites refSeq, so the result differs from the
first-record-only run. -/
theorem snps_first_reference_cex :
    ¬ (∀ (refs : List (List Nat)) (first : List Nat) (rest : List (List Nat))
        (queries : List (String × List Nat)) (DA : Nat → String),
        refs = first :: rest →
        snpsResultLines refs queries DA = snpsResultLines [first] queries DA) := by
  intro h
  have h2 := h [[136], [24]] [136] [[24]] [("q", [24])] (fun _ => "N") rfl
  revert h2
  decide

/-- C3 (amended): the reference-receive loop overwrites refSeq on every
record, so the pipeline compares every query against the LAST record of
the reference stream; all records before the last are the ones ignored. -/
theorem snps_uses_last_reference (rs : List (List Nat)) (r : List Nat)
    (queries : List (String × List Nat)) (DA : Nat → String) :
    snpsResultLines (rs ++ [r]) queries DA = snpsResultLines [r] queries DA := by
  unfold snpsResultLines
  rw [loadRefSeq_append rs r]
  rfl

/-- C4: closest.Closest calls writeResults and discards its return value,
returning nil: writeResults reports the creation failure, but closestTail
(the tail of Closest) returns none (nil) — for every sorted row set and
every failing sink. -/
theorem closest_swallows_write_error :
    writeResults [["row1\n"]] ⟨some "create failed", fun _ => none⟩
      = some "create failed" ∧
    closestTail [["row1\n"]] ⟨some "create failed", fun _ => none⟩ = none ∧
    (∀ (sorted : List (List String)) (sink : Sink), closestTail sorted sink = none) :=
  ⟨rfl, rfl, fun _ _ => rfl⟩

/-- C9 counterexample: the snps pipeline performs no width check: a query
record shorter than the reference is silently compared over its own
columns and produces an output row, instead of failing with a width
mismatch error. -/
theorem width_mismatch_cex :
    ¬ (∀ (refs : List (List Nat)) (queries : List (String × List Nat))
        (DA : Nat → String) (refSeq : List Nat),
        loadRefSeq refs = some refSeq →
        (∃ q ∈ queries, q.2.length ≠ refSeq.length) →
        snpsResultLines refs queries DA = none) := by
  intro h
  have h2 := h [[1, 1]] [("q", [2])] (fun _ => "x") [1, 1] rfl
    ⟨("q", [2]), by simp, by simp⟩
  revert h2
  decide

/-- C9 (amended): Closest rejects a query/target width mismatch of the
first records with an error before any comparison, producing no rows; the
snps pipeline has no width check: a query longer than the reference is an
index-out-of-range panic, while a query shorter than the reference is
silently compared over its own columns and still yields an output row. -/
theorem width_mismatch_behaviour :
    (∀ (threads : Nat) (QA : List (List Nat)) (Qnames : List String)
        (TA : List (List Nat)) (Tnames : List String)
        (arrivals : List (Nat × List String)),
        QA.length = Qnames.length → TA.length = Tnames.length →
        (QA.headD []).length ≠ (TA.headD []).length →
        ClosestModel threads QA Qnames TA Tnames arrivals
          = .error "query and target alignments are not the same width") ∧
    (∀ (refSeq : List Nat) (nm : String) (idx : Nat) (seq : List Nat)
        (DA : Nat → String), refSeq.length < seq.length →
        getSNPsLine refSeq nm idx seq DA = none) ∧
    (∀ (refSeq : List Nat) (nm : String) (idx : Nat) (seq : List Nat)
        (DA : Nat → String), seq.length ≤ refSeq.length →
        getSNPsLine refSeq nm idx seq DA ≠ none) := by
  refine ⟨?_, ?_, ?_⟩
  · intro threads QA Qnames TA Tnames arrivals h1 h2 h3
    have h4 : ¬ (QA.head?.getD []).length = (TA.head?.getD []).length := by
      simpa [List.headD_eq_head?_getD] using h3
    simp [ClosestModel, h1, h2, h4]
  · intro refSeq nm idx seq DA h
    simp [getSNPsLine, h]
  · intro refSeq nm idx seq DA h
    simp [getSNPsLine, Nat.not_lt.mpr h]

/-- C9 witness: width 2 query against width 1 target makes Closest fail;
a long query kills getSNPs, a short query still produces a line. -/
theorem width_mismatch_behaviour_witness :
    ClosestModel 4 [[1, 2]] ["q"] [[1]] ["t"] []
      = .error "query and target alignments are not the same width" ∧
    getSNPsLine [1] "q" 0 [2, 2] (fun _ => "x") = none ∧
    getSNPsLine [1, 1] "q" 0 [2] (fun _ => "x") ≠ none :=
  ⟨width_mismatch_behaviour.1 4 [[1, 2]] ["q"] [[1]] ["t"] [] rfl rfl (by decide),
    width_mismatch_behaviour.2.1 [1] "q" 0 [2, 2] (fun _ => "x") (by decide),
    width_mismatch_behaviour.2.2 [1, 1] "q" 0 [2] (fun _ => "x") (by decide)⟩

/-- C2 counterexample: when every distance is undefined (NaN), the
selector does not pick the target of maximum completeness: NaN == NaN is
false, so getMinFloatIndices returns only index 0 and completeness is
never consulted.  With distances [NaN, NaN] and completeness [0, 5] the
selector returns target 0 although target 1 scores higher. -/
theorem undefined_tie_break_cex :
    ¬ (∀ (V : List GFloat) (C : List Int),
        2 ≤ V.length → (∀ g ∈ V, g = none) →
        ∀ t : Nat, t < V.length →
          C.getD t 0 ≤ C.getD (getBestTargetIndex V C) 0) := by
  intro h
  have h1 := h [none, none] [0, 5] (by simp) (by simp) 1 (by simp)
  rw [getBestTargetIndex_nanHead [none] [0, 5]] at h1
  norm_num at h1

/-- C2 (amended): when the first distance is undefined (NaN) — in
particular when every distance is undefined — the Selector returns the
first target (index 0) without consulting completeness.  When the first
distance is defined and the minimum distance is exactly zero, attained by
two or more targets, the Selector does restrict to the minimum-distance
targets and picks the one of maximum Completeness Score, first in target
order on score ties. -/
theorem undefined_and_zero_tie_break :
    (∀ (rest : List GFloat) (C : List Int),
      getBestTargetIndex (none :: rest) C = 0) ∧
    (∀ (V : List GFloat) (C : List Int) (q : ℚ),
      V.head? = some (some q) →
      (∀ (i : Nat) (v : ℚ), V[i]? = some (some v) → 0 ≤ v) →
      ∀ i j : Nat, i ≠ j → V[i]? = some (some 0) → V[j]? = some (some 0) →
        V[getBestTargetIndex V C]? = some (some (0:ℚ)) ∧
        (∀ t : Nat, V[t]? = some (some (0:ℚ)) →
          C.getD t 0 ≤ C.getD (getBestTargetIndex V C) 0) ∧
        (∀ t : Nat, V[t]? = some (some (0:ℚ)) →
          C.getD t 0 = C.getD (getBestTargetIndex V C) 0 →
          getBestTargetIndex V C ≤ t)) :=
  ⟨fun rest C => getBestTargetIndex_nanHead rest C,
    fun V C q hh hmin i j hij hi hj => bestPick_spec V C q 0 hh hmin i j hij hi hj⟩

/-- C2 witness: all-undefined distances pick target 0; a two-way zero
distance tie is resolved to a minimum-distance target. -/
theorem undefined_and_zero_tie_break_witness :
    getBestTargetIndex [none, none] [0, 5] = 0 ∧
    [some (0:ℚ), some 0][getBestTargetIndex [some (0:ℚ), some 0] [0, 5]]?
      = some (some (0:ℚ)) := by
  constructor
  · exact undefined_and_zero_tie_break.1 [none] [0, 5]
  · refine (undefined_and_zero_tie_break.2 [some 0, some 0] [0, 5] 0 (by simp) ?_
      0 1 (by omega) (by simp) (by simp)).1
    intro i v hv
    match i, hv with
    | 0, hv =>
      have : (0:ℚ) = v := by simpa using hv
      exact le_of_eq this
    | 1, hv =>
      have : (0:ℚ) = v := by simpa using hv
      exact le_of_eq this
    | (n + 2), hv => simp at hv

/-- C5 counterexample: a NaN in the first position poisons the running
minimum, so even when the exact minimum 0 is attained at indices 1 and 2,
the selector returns index 0 — not a minimum-distance index, and not the
maximum-completeness one. -/
theorem tie_break_nan_cex :
    ¬ (∀ (V : List GFloat) (C : List Int) (m : ℚ),
        (∀ (i : Nat) (v : ℚ), V[i]? = some (some v) → m ≤ v) →
        (∃ i j : Nat, i ≠ j ∧ V[i]? = some (some m) ∧ V[j]? = some (some m)) →
        V[getBestTargetIndex V C]? = some (some m) ∧
        (∀ t : Nat, V[t]? = some (some m) →
          C.getD t 0 ≤ C.getD (getBestTargetIndex V C) 0) ∧
        (∀ t : Nat, V[t]? = some (some m) →
          C.getD t 0 = C.getD (getBestTargetIndex V C) 0 →
          getBestTargetIndex V C ≤ t)) := by
  intro h
  have hmin : ∀ (i : Nat) (v : ℚ),
      ([none, some 0, some 0] : List GFloat)[i]? = some (some v) → 0 ≤ v := by
    intro i v hv
    match i, hv with
    | 0, hv => simp at hv
    | 1, hv =>
      have : (0:ℚ) = v := by simpa using hv
      exact le_of_eq this
    | 2, hv =>
      have : (0:ℚ) = v := by simpa using hv
      exact le_of_eq this
    | (n + 3), hv => simp at hv
  have hex : ∃ i j : Nat, i ≠ j ∧
      ([none, some 0, some 0] : List GFloat)[i]? = some (some (0:ℚ)) ∧
      ([none, some 0, some 0] : List GFloat)[j]? = some (some (0:ℚ)) :=
    ⟨1, 2, by omega, by simp, by simp⟩
  obtain ⟨h1, _, _⟩ := h [none, some 0, some 0] [0, 0, 5] 0 hmin hex
  rw [getBestTargetIndex_nanHead [some 0, some 0] [0, 0, 5]] at h1
  simp at h1

/-- C5 (amended): for every distance vector whose first entry is defined
(not NaN) in which the exact minimum value m is attained at two or more
indices, getBestTargetIndex returns a minimum-distance index whose
completeness score is maximal among the minimum-distance indices, and the
first such index in target order when scores tie. -/
theorem tie_break_deterministic (V : List GFloat) (C : List Int) (q m : ℚ)
    (hhead : V.head? = some (some q))
    (hmin : ∀ (i : Nat) (v : ℚ), V[i]? = some (some v) → m ≤ v)
    (i j : Nat) (hij : i ≠ j)
    (hi : V[i]? = some (some m)) (hj : V[j]? = some (some m)) :
    V[getBestTargetIndex V C]? = some (some m) ∧
    (∀ t : Nat, V[t]? = some (some m) →
      C.getD t 0 ≤ C.getD (getBestTargetIndex V C) 0) ∧
    (∀ t : Nat, V[t]? = some (some m) →
      C.getD t 0 = C.getD (getBestTargetIndex V C) 0 →
      getBestTargetIndex V C ≤ t) :=
  bestPick_spec V C q m hhead hmin i j hij hi hj

/-- C5 witness: distances [1, 0, 0] with completeness [0, 0, 5]: the
selector returns a minimum-distance index. -/
theorem tie_break_deterministic_witness :
    [some (1:ℚ), some 0, some 0][getBestTargetIndex [some (1:ℚ), some 0, some 0]
      [0, 0, 5]]? = some (some (0:ℚ)) := by
  refine (tie_break_deterministic [some 1, some 0, some 0] [0, 0, 5] 1 0
    (by simp) ?_ 1 2 (by omega) (by simp) (by simp)).1
  intro i v hv
  match i, hv with
  | 0, hv =>
    have : (1:ℚ) = v := by simpa using hv
    rw [← this]
    norm_num
  | 1, hv =>
    have : (0:ℚ) = v := by simpa using hv
    exact le_of_eq this
  | 2, hv =>
    have : (0:ℚ) = v := by simpa using hv
    exact le_of_eq this
  | (n + 3), hv => simp at hv

/-- C8: for sane inputs (at least one thread, at least one query, parallel
name arrays, equal first-record widths) and any arrival order of the chunk
results, Closest produces exactly one row per query, in original query
input order, each row being
`query,closest,SNPdistance,SNPs` with the closest target chosen by
getBestTargetIndex on the query's distance row, SNPdistance the number of
Difference Records against that target, and the SNPs field the
`;`-delimited Difference Records `<position><queryBase><targetBase>` with
ascending 1-based positions (one per differing column). -/
theorem closest_rows_spec
    (threads : Nat) (QA : List (List Nat)) (Qnames : List String)
    (TA : List (List Nat)) (Tnames : List String)
    (scoreDict : Nat → Int) (nucDict : Nat → String)
    (arrivals : List (Nat × List String))
    (hthreads : 1 ≤ threads) (hQ : QA.length = Qnames.length) (hQ0 : QA ≠ [])
    (hT : TA.length = Tnames.length)
    (hw : (QA.headD []).length = (TA.headD []).length)
    (harr : arrivals.Perm (chunkResults QA Qnames TA Tnames
      (scoreAlignment TA scoreDict) nucDict
      (QA.length / (if QA.length < threads then QA.length else threads))
      (if QA.length < threads then QA.length else threads))) :
    ClosestModel threads QA Qnames TA Tnames arrivals
      = .ok ((QA.zip Qnames).map (fun p =>
          rowFor p.1 p.2 TA Tnames (scoreAlignment TA scoreDict) nucDict)) ∧
    ∀ q t : List Nat,
      getSNPs q t nucDict = ((List.range t.length).filter (fun r =>
        decide ((q.getD r 0).land (t.getD r 0) < 16))).map
        (fun r => toString (r + 1) ++ nucDict (q.getD r 0) ++ nucDict (t.getD r 0)) := by
  constructor
  · set N := if QA.length < threads then QA.length else threads with hNdef
    set cs := QA.length / N with hcsdef
    set S := scoreAlignment TA scoreDict with hSdef
    have hN1 : 1 ≤ N := by
      rw [hNdef]
      split
      · exact List.length_pos.mpr hQ0
      · exact hthreads
    have hfill : fillSlots N arrivals = (List.range N).map (fun i =>
        processChunk (chunkOf QA cs N i) (chunkOf Qnames cs N i) TA Tnames S nucDict) := by
      refine fillSlots_eq N _ arrivals ?_
      exact harr
    have hchunkmap : (List.range N).map (fun i =>
          processChunk (chunkOf QA cs N i) (chunkOf Qnames cs N i) TA Tnames S nucDict)
        = (List.range N).map (fun i => (chunkOf (QA.zip Qnames) cs N i).map
            (fun p => rowFor p.1 p.2 TA Tnames S nucDict)) := by
      apply List.map_congr_left
      intro i _
      rw [processChunk_eq _ _ _ _ _ _ (chunkOf_length_eq QA Qnames cs N i hQ),
        ← chunkOf_zip]
    have hmodel : ClosestModel threads QA Qnames TA Tnames arrivals
        = .ok ((fillSlots N arrivals).flatten) := by
      unfold ClosestModel
      rw [if_neg (fun hc => hc hQ), if_neg (fun hc => hc hT), if_neg (fun hc => hc hw)]
    rw [hmodel, hfill, hchunkmap]
    congr 1
    have hmm : (List.range N).map (fun i => (chunkOf (QA.zip Qnames) cs N i).map
          (fun p => rowFor p.1 p.2 TA Tnames S nucDict))
        = ((List.range N).map (fun i => chunkOf (QA.zip Qnames) cs N i)).map
            (List.map (fun p => rowFor p.1 p.2 TA Tnames S nucDict)) := by
      rw [List.map_map]
      rfl
    rw [hmm, ← List.map_flatten, chunks_flatten cs N (QA.zip Qnames) hN1]
  · intro q t
    exact getSNPs_eq_filter q t nucDict

/-- C8 witness: one query of code 16 against one identical target: the
single output row is `q,t,0,` with an empty SNP list. -/
theorem closest_rows_spec_witness :
    ClosestModel 1 [[16]] ["q"] [[16]] ["t"]
      (chunkResults [[16]] ["q"] [[16]] ["t"]
        (scoreAlignment [[16]] (fun _ => 0)) (fun _ => "N") 1 1)
      = .ok ["q,t,0,\n"] ∧
    getSNPs [16] [16] (fun _ => "N") = [] := by
  have h := closest_rows_spec 1 [[16]] ["q"] [[16]] ["t"] (fun _ => 0) (fun _ => "N")
    (chunkResults [[16]] ["q"] [[16]] ["t"]
      (scoreAlignment [[16]] (fun _ => 0)) (fun _ => "N") 1 1)
    (le_refl 1) rfl (by simp) rfl rfl (List.Perm.refl _)
  refine ⟨h.1.trans ?_, (h.2 [16] [16]).trans (by rfl)⟩
  rfl

/-- C6 counterexample: with the claim's literal predicates — different iff
`(x & y) < 16`, same-confirmed iff `(x & 8) == 8 and x == y` — the column
`x = y = 8` is in two classes at once, and the three counts sum to 2 on the
one-column pair `([8], [8])`, not to the length 1. -/
theorem partition_overlap_cex :
    (¬ ∀ x y : Nat,
        (colDifferent x y ∧ ¬ colSameConfirmed x y ∧ ¬ colUninformative x y) ∨
        (¬ colDifferent x y ∧ colSameConfirmed x y ∧ ¬ colUninformative x y) ∨
        (¬ colDifferent x y ∧ ¬ colSameConfirmed x y ∧ colUninformative x y)) ∧
    (¬ ∀ t q : List Nat, t.length = q.length →
        countDifferent t q + countSameConfirmed t q + countUninformative t q = t.length) := by
  constructor
  · intro h
    have h8 := h 8 8
    revert h8
    decide
  · intro h
    have h8 := h [8] [8] rfl
    revert h8
    decide

/-- C6 (amended): the classification the code computes gives priority to
`different`: a column is different iff `(x & y) < 16`, same-confirmed iff
`(x & 8) == 8 and x == y` *and not different*, uninformative otherwise.
With these classes every column of a pair of equal-length sequences is in
exactly one class, the counts sum to the length, and the code's
(differences, denominator) pair is exactly
(different count, different count + same-confirmed count). -/
theorem denominator_partition (t q : List Nat) (h : t.length = q.length) :
    (∀ x y : Nat,
        (colDifferent x y ∧ ¬ colSameOnly x y ∧ ¬ colUninformative x y) ∨
        (¬ colDifferent x y ∧ colSameOnly x y ∧ ¬ colUninformative x y) ∨
        (¬ colDifferent x y ∧ ¬ colSameOnly x y ∧ colUninformative x y)) ∧
    countDifferent t q + countSameOnly t q + countUninformative t q = t.length ∧
    pairCounts t q = (countDifferent t q, countDifferent t q + countSameOnly t q) := by
  refine ⟨?_, ?_, pairCounts_eq t q⟩
  · intro x y
    by_cases hd : colDifferent x y <;> by_cases hs : colSameConfirmed x y <;>
      simp [colSameOnly, colUninformative, hd, hs]
  · have h2 := count_partition t q
    rw [List.length_zip] at h2
    omega

/-- C6 witness: the partition at a concrete three-column pair. -/
theorem denominator_partition_witness :
    countDifferent [24, 40, 2] [24, 136, 4] + countSameOnly [24, 40, 2] [24, 136, 4]
      + countUninformative [24, 40, 2] [24, 136, 4] = 3 :=
  (denominator_partition [24, 40, 2] [24, 136, 4] rfl).2.1

/-- C7 counterexample: with same-confirmed read literally (no exclusion of
columns that are also different), the identity
`distance = differences / (differences + same-confirmed)` fails on the
pair `([8], [8])`: the code computes 1/1 = 1, the formula gives 1/2. -/
theorem distance_formula_cex :
    ¬ ∀ t q : List Nat, t.length = q.length →
        pairDistance t q = (if countDifferent t q + countSameConfirmed t q = 0 then none
          else some ((countDifferent t q : ℚ)
            / ((countDifferent t q : ℚ) + (countSameConfirmed t q : ℚ)))) := by
  intro h
  have h8 := h [8] [8] rfl
  have hd : countDifferent [8] [8] = 1 := by decide
  have hs : countSameConfirmed [8] [8] = 1 := by decide
  have hp : pairDistance [8] [8] = some 1 := by
    have hc : pairCounts [8] [8] = (1, 1) := by decide
    simp only [pairDistance, hc]
    norm_num
  rw [hd, hs, hp] at h8
  norm_num at h8

/-- C7 (amended): with same-confirmed taken as the class the code counts
(same and not different), the distance equals
differences / (differences + same-confirmed), is NaN exactly when that
denominator is zero, and lies in [0,1] whenever it is defined. -/
theorem distance_bounds (t q : List Nat) (h : t.length = q.length) :
    pairDistance t q = (if countDifferent t q + countSameOnly t q = 0 then none
        else some ((countDifferent t q : ℚ)
          / ((countDifferent t q : ℚ) + (countSameOnly t q : ℚ)))) ∧
    ∀ x : ℚ, pairDistance t q = some x → 0 ≤ x ∧ x ≤ 1 := by
  have hc := pairCounts_eq t q
  constructor
  · simp only [pairDistance, hc]
    split
    · rfl
    · congr 1
      push_cast
      ring
  · intro x hx
    simp only [pairDistance, hc] at hx
    by_cases h0 : countDifferent t q + countSameOnly t q = 0
    · simp [h0] at hx
    · simp only [h0, if_neg, if_false] at hx
      rw [Option.some_inj] at hx
      subst hx
      have hpos : (0:ℚ) < ((countDifferent t q + countSameOnly t q : Nat) : ℚ) := by
        exact_mod_cast Nat.pos_of_ne_zero h0
      constructor
      · positivity
      · rw [div_le_one hpos]
        exact_mod_cast Nat.le_add_right _ _

/-- C7 witness: pair with one difference and one confirmed-same column. -/
theorem distance_bounds_witness :
    pairDistance [24, 136] [24, 40] = some (1 / 2) ∧
      (0:ℚ) ≤ 1 / 2 ∧ (1 / 2 : ℚ) ≤ 1 := by
  have h := distance_bounds [24, 136] [24, 40] rfl
  have hd : countDifferent [24, 136] [24, 40] = 1 := by decide
  have hso : countSameOnly [24, 136] [24, 40] = 1 := by decide
  have e : pairDistance [24, 136] [24, 40] = some (1 / 2) := by
    rw [h.1, hd, hso]
    norm_num
  exact ⟨e, (h.2 (1 / 2) e).1, (h.2 (1 / 2) e).2⟩

/-- C10: a code below 16 satisfies `x & x = x < 16`, so a column holding
the identical code `x` on both sides is classified as different: the
rendered Difference Record — position, then the query base, then the
target base — appears in the SNP list with both base characters identical,
for any decoding array. -/
theorem low_code_identical_column_is_snp (q t : List Nat) (r x : Nat) (DA : Nat → String)
    (hq : q.getD r 0 = x) (ht : t.getD r 0 = x) (hr : r < t.length) (hx : x < 16) :
    x.land x = x ∧ colDifferent x x ∧
      (toString (r + 1) ++ DA x ++ DA x) ∈ getSNPs q t DA := by
  have hland : x.land x = x := Nat.and_self x
  refine ⟨hland, ?_, ?_⟩
  · unfold colDifferent
    rw [hland]
    exact hx
  · rw [getSNPs_eq_filter]
    apply List.mem_map.mpr
    refine ⟨r, ?_, by rw [hq, ht]⟩
    apply List.mem_filter.mpr
    refine ⟨List.mem_range.mpr hr, ?_⟩
    rw [hq, ht, hland]
    exact decide_eq_true hx

/-- C10 witness: a gap-style code 4 against itself is reported as the SNP
record "1--" when the decoding array renders 4 as "-". -/
theorem low_code_identical_column_is_snp_witness :
    (4:Nat).land 4 = 4 ∧ colDifferent 4 4 ∧
      (toString (0 + 1) ++ (fun _ : Nat => "-") 4 ++ (fun _ : Nat => "-") 4) ∈
        getSNPs [4] [4] (fun _ => "-") :=
  low_code_identical_column_is_snp [4] [4] 0 4 (fun _ => "-") rfl rfl
    (by decide) (by decide)

end Gofasta
